import Mathlib

set_option autoImplicit false

namespace SchemaGenie

/-!
Verification of the OCA-bundle import pipeline (`data_import/import_oca.py`).

The development shallowly embeds the body of `import_oca_package`: the
document-normalisation part (dictionary lookups with defaults, overlay
folding, truthiness-guarded fallbacks) and the emitted Neo4j queries
(`MERGE`/`SET`/edge-`MERGE` statements with their concrete parameter
values).  Python's fallible attribute accesses are modelled in `Except`:
calling `.get`/`.items` on a non-dict raises `AttributeError`, iterating a
non-iterable raises `TypeError`, and so on.  The graph store is modelled
with nodes identified by label plus match-key properties (the upsert
interface used by every emitted query), where setting a property to null
removes it, as in Neo4j.
-/

mutual
/-- A parsed JSON value, as produced by `json.load` in `import_oca.py`.
Objects keep the key order of the file (Python dicts preserve insertion
order); the numbers appearing in these documents are modelled as integers. -/
inductive Json where
  | null
  | bool (b : Bool)
  | num (n : Int)
  | str (s : String)
  | arr (xs : JArr)
  | obj (kvs : JObj)
  deriving DecidableEq, Repr

/-- A JSON array, as a plain inductive list of values. -/
inductive JArr where
  | nil
  | cons (hd : Json) (tl : JArr)
  deriving DecidableEq, Repr

/-- A JSON object: an insertion-ordered association list of string keys. -/
inductive JObj where
  | nil
  | cons (k : String) (v : Json) (tl : JObj)
  deriving DecidableEq, Repr
end

/-- The elements of a JSON array as a `List`. -/
def JArr.toList : JArr → List Json
  | .nil => []
  | .cons x tl => x :: tl.toList

/-- The key/value pairs of a JSON object as a `List`, in insertion order
(this is what Python's `dict.items()` yields). -/
def JObj.toList : JObj → List (String × Json)
  | .nil => []
  | .cons k v tl => (k, v) :: tl.toList

/-- Build a JSON array from a `List` (notation helper for concrete documents). -/
def JArr.ofList : List Json → JArr
  | [] => .nil
  | x :: xs => .cons x (JArr.ofList xs)

/-- Build a JSON object from a `List` of pairs (notation helper). -/
def JObj.ofList : List (String × Json) → JObj
  | [] => .nil
  | (k, v) :: xs => .cons k v (JObj.ofList xs)

/-- Concrete-document helper: object literal. -/
def Json.mkObj (kvs : List (String × Json)) : Json := .obj (JObj.ofList kvs)

/-- Concrete-document helper: array literal. -/
def Json.mkArr (xs : List Json) : Json := .arr (JArr.ofList xs)

/-- First value stored under `key`, if any (Python dict lookup; parsed JSON
objects have unique keys, so first is the only one). -/
def JObj.lookup : JObj → String → Option Json
  | .nil, _ => none
  | .cons k v tl, key => if k = key then some v else tl.lookup key

/-- Python truthiness of a JSON value: `None`, `False`, `0`, `""`, `[]` and
`{}` are falsy, everything else is truthy. -/
def Json.truthy : Json → Bool
  | .null => false
  | .bool b => b
  | .num n => n != 0
  | .str s => s ≠ ""
  | .arr xs => xs ≠ .nil
  | .obj kvs => kvs ≠ .nil

/-- Whether a value may be used as a Python dict key (lists and dicts are
unhashable). -/
def Json.hashable : Json → Bool
  | .arr _ => false
  | .obj _ => false
  | _ => true

/-- The Python exceptions the import code can raise while processing a
document. -/
inductive PyErr where
  | attributeError
  | typeError
  | keyError
  | indexError
  deriving DecidableEq, Repr

/-- Python `v.get(k, dflt)`: defaulting dictionary lookup; raises
`AttributeError` when `v` is not a dict. -/
def pyGet : Json → String → Json → Except PyErr Json
  | .obj kvs, k, dflt => pure ((kvs.lookup k).getD dflt)
  | _, _, _ => .error .attributeError

/-- Python `v.items()`: the key/value pairs of a dict; raises
`AttributeError` when `v` is not a dict. -/
def pyItems : Json → Except PyErr (List (String × Json))
  | .obj kvs => pure kvs.toList
  | _ => .error .attributeError

/-- Python `for x in v`: the elements of a list, the keys of a dict, the
one-character strings of a string; raises `TypeError` otherwise. -/
def pyIter : Json → Except PyErr (List Json)
  | .arr xs => pure xs.toList
  | .obj kvs => pure (kvs.toList.map fun p => Json.str p.1)
  | .str s => pure (s.data.map fun c => Json.str (String.mk [c]))
  | _ => .error .typeError

/-- Python `x in v`: key containment for dicts, membership for lists,
substring test for strings; raises `TypeError` otherwise. -/
def pyContains : Json → Json → Except PyErr Bool
  | .obj kvs, x => pure (kvs.toList.any fun p => Json.str p.1 == x)
  | .arr xs, x => pure (xs.toList.any fun y => y == x)
  | .str s, .str t => pure (t = "" || (s.splitOn t).length ≥ 2)
  | .str _, _ => .error .typeError
  | _, _ => .error .typeError

/-- Python `v[x]` subscription for the shapes this program exercises. -/
def pyGetItem : Json → Json → Except PyErr Json
  | .obj kvs, .str k =>
      match kvs.lookup k with
      | some v => pure v
      | none => .error .keyError
  | .obj _, _ => .error .keyError
  | .arr xs, .num i =>
      match xs.toList.get? i.toNat with
      | some v => if 0 ≤ i then pure v else .error .indexError
      | none => .error .indexError
  | _, _ => .error .typeError

/-- How `json.dumps` renders a basic value used as a dict key (string keys
kept, numbers/booleans/None coerced to their JSON spelling). -/
def pyKeyStr : Json → String
  | .str s => s
  | .num n => toString n
  | .bool true => "true"
  | .bool false => "false"
  | _ => "null"

/-- JSON string quoting used by the serializer. -/
def jsonQuote (s : String) : String :=
  "\"" ++ String.join (s.data.map fun c =>
    if c = '"' then "\\\"" else if c = '\\' then "\\\\" else String.mk [c]) ++ "\""

mutual
/-- `json.dumps` with its default separators, as used to serialise nested
overlay data into scalar node properties. -/
def Json.dumps : Json → String
  | .null => "null"
  | .bool true => "true"
  | .bool false => "false"
  | .num n => toString n
  | .str s => jsonQuote s
  | .arr xs => "[" ++ JArr.dumpsElems xs ++ "]"
  | .obj kvs => "\x7b" ++ JObj.dumpsElems kvs ++ "\x7d"

/-- Comma-separated serialisation of array elements. -/
def JArr.dumpsElems : JArr → String
  | .nil => ""
  | .cons x .nil => Json.dumps x
  | .cons x (.cons y tl) => Json.dumps x ++ ", " ++ JArr.dumpsElems (.cons y tl)

/-- Comma-separated serialisation of object entries. -/
def JObj.dumpsElems : JObj → String
  | .nil => ""
  | .cons k v .nil => jsonQuote k ++ ": " ++ Json.dumps v
  | .cons k v (.cons k' v' tl) =>
      jsonQuote k ++ ": " ++ Json.dumps v ++ ", " ++ JObj.dumpsElems (.cons k' v' tl)
end

/-! ## Overlay folding and per-section extraction (`import_oca_package`, normalisation half) -/

/-- Lookup in a Python-dict-modelling association list. -/
def alGet {κ α : Type} [DecidableEq κ] (l : List (κ × α)) (k : κ) : Option α :=
  (l.find? fun p => p.1 == k).map (·.2)

/-- Overwrite-or-append in a Python-dict-modelling association list: an
existing key keeps its position, a new key is appended (Python dict
assignment semantics). -/
def alSet {κ α : Type} [DecidableEq κ] (l : List (κ × α)) (k : κ) (v : α) : List (κ × α) :=
  if l.any (fun p => p.1 == k) then l.map (fun p => if p.1 == k then (k, v) else p)
  else l ++ [(k, v)]

/-- The mapping `attribute name ↦ (language ↦ value)` accumulated while
folding a multi-language overlay. -/
abbrev LangMap := List (String × List (Json × Json))

/-- One overlay entry's inner loop:
`acc.setdefault(attr, {})[lang] = value` for every `(attr, value)` item.
Assigning with an unhashable language key raises `TypeError`. -/
def writeLang (lang : Json) : List (String × Json) → LangMap → Except PyErr LangMap
  | [], acc => pure acc
  | (attr, v) :: ps, acc =>
      if lang.hashable then
        writeLang lang ps (alSet acc attr (alSet ((alGet acc attr).getD []) lang v))
      else .error .typeError

/-- Folding a multi-language overlay (`information`, `entry`): iterate the
language-tagged entries, look up the entry's language (default
`"unknown"`) and its attribute mapping under `field`, and fold every item
into the accumulator. -/
def foldLang (field : String) : List Json → LangMap → Except PyErr LangMap
  | [], acc => pure acc
  | info :: rest, acc => do
      let lang ← pyGet info "language" (.str "unknown")
      let attrInfo ← pyGet info field (.obj .nil)
      let kvs ← pyItems attrInfo
      let acc' ← writeLang lang kvs acc
      foldLang field rest acc'

/-- `data["oca_bundle"]["bundle"]`, each level defaulting to `{}`. -/
def bundleOf (data : Json) : Except PyErr Json := do
  let oca_bundle ← pyGet data "oca_bundle" (.obj .nil)
  pyGet oca_bundle "bundle" (.obj .nil)

/-- `bundle["capture_base"]`, defaulting to `{}`. -/
def captureBaseOf (data : Json) : Except PyErr Json := do
  pyGet (← bundleOf data) "capture_base" (.obj .nil)

/-- `bundle["overlays"]`, defaulting to `{}`. -/
def overlaysOf (data : Json) : Except PyErr Json := do
  pyGet (← bundleOf data) "overlays" (.obj .nil)

/-- `schema_id = data.get("d") or str(uuid.uuid4())` — the fresh random
identifier is injected as `freshId`, so the fallback is taken exactly when
`data.get("d")` is falsy. -/
def schemaIdOf (data : Json) (freshId : String) : Except PyErr Json := do
  let v ← pyGet data "d" .null
  pure (if v.truthy then v else .str freshId)

/-- `capture_base.get("d")`. -/
def captureBaseIdOf (data : Json) : Except PyErr Json := do
  pyGet (← captureBaseOf data) "d" .null

/-- `capture_base.get("attributes", {})`. -/
def attributesOf (data : Json) : Except PyErr Json := do
  pyGet (← captureBaseOf data) "attributes" (.obj .nil)

/-- `units`: the unit overlay's `attribute_unit` mapping, `{}` when the
overlay is falsy. -/
def unitsOf (data : Json) : Except PyErr Json := do
  let unit_overlay ← pyGet (← overlaysOf data) "unit" (.obj .nil)
  if unit_overlay.truthy then pyGet unit_overlay "attribute_unit" (.obj .nil)
  else pure (.obj .nil)

/-- `attribute_descriptions`: the fold of the `information` overlays. -/
def attributeDescriptionsOf (data : Json) : Except PyErr LangMap := do
  let infos ← pyIter (← pyGet (← overlaysOf data) "information" (.arr .nil))
  foldLang "attribute_information" infos []

/-- `controlled_vocabularies`: the fold of the `entry` overlays. -/
def controlledVocabulariesOf (data : Json) : Except PyErr LangMap := do
  let entries ← pyIter (← pyGet (← overlaysOf data) "entry" (.arr .nil))
  foldLang "attribute_entries" entries []

/-- `entry_codes`: the entry-code overlay's `attribute_entry_codes`
mapping, `{}` when the overlay is falsy. -/
def entryCodesOf (data : Json) : Except PyErr Json := do
  let overlay ← pyGet (← overlaysOf data) "entry_code" (.obj .nil)
  if overlay.truthy then pyGet overlay "attribute_entry_codes" (.obj .nil)
  else pure (.obj .nil)

/-- `attribute_formats`: the format overlay's `attribute_formats` mapping,
`{}` when the overlay is falsy. -/
def attributeFormatsOf (data : Json) : Except PyErr Json := do
  let overlay ← pyGet (← overlaysOf data) "format" (.obj .nil)
  if overlay.truthy then pyGet overlay "attribute_formats" (.obj .nil)
  else pure (.obj .nil)

/-- `meta_overlays = overlays.get("meta", [])`, iterated. -/
def metaOverlaysOf (data : Json) : Except PyErr (List Json) := do
  pyIter (← pyGet (← overlaysOf data) "meta" (.arr .nil))

/-- Ordering extraction: look up `extensions.adc` by the capture-base id;
when present, read `overlays.ordering.attribute_ordering` (default `[]`)
and `overlays.ordering.entry_code_ordering` (default `{}`), otherwise
leave `ordering_data` empty. -/
def orderingDataOf (data : Json) : Except PyErr (Option (Json × Json)) := do
  let extensions ← pyGet data "extensions" (.obj .nil)
  let adc ← pyGet extensions "adc" (.obj .nil)
  let cbid ← captureBaseIdOf data
  if (← pyContains adc cbid) then
    let entry ← pyGetItem adc cbid
    let ordering_overlays ← pyGet entry "overlays" (.obj .nil)
    let ordering ← pyGet ordering_overlays "ordering" (.obj .nil)
    let ao ← pyGet ordering "attribute_ordering" (.arr .nil)
    let eco ← pyGet ordering "entry_code_ordering" (.obj .nil)
    pure (some (ao, eco))
  else
    pure none

/-! ## The emitted queries (`import_oca_package`, Neo4j half) -/

/-- One `session.run` call of `import_oca_package`, with the concrete
parameter values it is invoked with (structured values already serialised,
exactly where the code applies `json.dumps`). -/
inductive Query where
  /-- `MERGE (s:Schema {id}) SET s.name, s.displayName, s.capture_base_id, s.type`. -/
  | schemaQ (schema_id : Json) (schema_name : String) (capture_base_id : Json)
      (schema_type : Json)
  /-- `MERGE (a:Attribute {name}) SET six properties; MATCH (s:Schema {id}) MERGE (s)-[:HAS_ATTRIBUTE]->(a)`. -/
  | attrQ (attr_name attr_type attr_unit attr_description attr_format
      attr_vocabulary attr_codes schema_id : Json)
  /-- `MERGE (m:Meta {name, schema_id, language}) SET m.description; MATCH (s:Schema {id}) MERGE (s)-[:HAS_META]->(m)`. -/
  | metaQ (meta_name : Json) (schema_id : Json) (meta_language : Json) (meta_desc : Json)
  /-- `MATCH (s:Schema {id}) SET s.attribute_ordering, s.entry_code_ordering`. -/
  | orderingQ (schema_id : Json) (attribute_ordering : Json) (entry_code_ordering : String)
  deriving DecidableEq, Repr

/-- Serialisation of a folded per-language mapping, as `json.dumps` renders
the corresponding Python dict. -/
def dumpsLangMap (m : List (Json × Json)) : String :=
  "\x7b" ++ String.intercalate ", "
    (m.map fun p => jsonQuote (pyKeyStr p.1) ++ ": " ++ Json.dumps p.2) ++ "\x7d"

/-- `json.dumps(m.get(attr)) if m.get(attr) else None`: the folded
per-language mapping of one attribute, serialised when truthy. -/
def dumpsIfTruthy (m : LangMap) (attr : String) : Json :=
  match alGet m attr with
  | some mm => if mm.isEmpty then Json.null else .str (dumpsLangMap mm)
  | none => Json.null

/-- The parameters of one Attribute upsert: per-attribute lookups into the
section mappings, each defaulting to `None`, with the description and
vocabulary mappings and the code list serialised when truthy and passed as
`None` otherwise. -/
def attrQOf (schema_id : Json) (units : Json) (descs : LangMap) (formats : Json)
    (vocs : LangMap) (entry_codes : Json) (p : String × Json) : Except PyErr Query := do
  let attr_unit ← pyGet units p.1 .null
  let attr_description := dumpsIfTruthy descs p.1
  let attr_format ← pyGet formats p.1 .null
  let attr_vocabulary := dumpsIfTruthy vocs p.1
  let c ← pyGet entry_codes p.1 .null
  let attr_codes := if c.truthy then Json.str c.dumps else Json.null
  pure (.attrQ (.str p.1) p.2 attr_unit attr_description attr_format attr_vocabulary
    attr_codes schema_id)

/-- The Meta upserts: one per meta overlay entry whose `name` is truthy,
with `language` defaulting to `"unknown"`. -/
def metaQsOf (schema_id : Json) : List Json → Except PyErr (List Query)
  | [] => pure []
  | m :: ms => do
      let meta_name ← pyGet m "name" .null
      let meta_desc ← pyGet m "description" .null
      let meta_language ← pyGet m "language" (.str "unknown")
      let rest ← metaQsOf schema_id ms
      pure (if meta_name.truthy then
        .metaQ meta_name schema_id meta_language meta_desc :: rest else rest)

/-- Effectful map over a list in `Except` (the per-attribute query loop). -/
def mapE {α β : Type} (f : α → Except PyErr β) : List α → Except PyErr (List β)
  | [] => pure []
  | a :: as => do
      let b ← f a
      let bs ← mapE f as
      pure (b :: bs)

/-- The values `import_oca_package` has extracted from one document by the
time it starts issuing queries. -/
structure NormParts where
  schema_id : Json
  capture_base_id : Json
  schema_type : Json
  attrItems : List (String × Json)
  units : Json
  descs : LangMap
  vocs : LangMap
  entry_codes : Json
  formats : Json
  metas : List Json
  ordering_data : Option (Json × Json)
  deriving DecidableEq, Repr

/-- The normalisation half of `import_oca_package`, in source order:
extract ids, attributes, every overlay section and the ordering extension
from the parsed document. -/
def normalize (data : Json) (freshId : String) : Except PyErr NormParts := do
  let capture_base ← captureBaseOf data
  let schema_id ← schemaIdOf data freshId
  let capture_base_id ← pyGet capture_base "d" .null
  let attributes ← pyGet capture_base "attributes" (.obj .nil)
  let units ← unitsOf data
  let descs ← attributeDescriptionsOf data
  let vocs ← controlledVocabulariesOf data
  let entry_codes ← entryCodesOf data
  let formats ← attributeFormatsOf data
  let metas ← metaOverlaysOf data
  let ordering_data ← orderingDataOf data
  let schema_type ← pyGet data "type" (.str "oca_package/1.0")
  let attrItems ← pyItems attributes
  pure ⟨schema_id, capture_base_id, schema_type, attrItems, units, descs, vocs,
    entry_codes, formats, metas, ordering_data⟩

/-- The emission half of `import_oca_package`: in order, the Schema upsert,
one Attribute upsert per `capture_base.attributes` item, the Meta upserts,
and — only when ordering data was extracted — the ordering update. -/
def emit (schemaName : String) (n : NormParts) : Except PyErr (List Query) := do
  let attrQs ← mapE (attrQOf n.schema_id n.units n.descs n.formats n.vocs n.entry_codes)
    n.attrItems
  let metaQs ← metaQsOf n.schema_id n.metas
  let orderingQs := match n.ordering_data with
    | some (ao, eco) => [Query.orderingQ n.schema_id ao eco.dumps]
    | none => []
  pure (Query.schemaQ n.schema_id schemaName n.capture_base_id n.schema_type ::
    (attrQs ++ metaQs ++ orderingQs))

/-- The body of `import_oca_package` for one parsed document: normalise,
then emit the query sequence.  `schemaName` is the display name derived
from the file name; `freshId` is the `uuid.uuid4()` value used when the
document's top-level id is falsy. -/
def importOca (data : Json) (schemaName : String) (freshId : String) :
    Except PyErr (List Query) := do
  emit schemaName (← normalize data freshId)

/-! ## Graph-state semantics of the emitted queries

Nodes are identified by their label together with the match-key properties
every query merges/matches them by (`Schema {id}`, `Attribute {name}`,
`Meta {name, schema_id, language}`); the remaining properties form an
unordered map, represented canonically as a key-sorted association list.
As in Neo4j, `SET n.k = $v` with a null parameter removes the property. -/

/-- A node's property map: association list kept sorted by key. -/
abbrev PropMap := List (String × Json)

/-- A node's identity: its label and the match-key properties it is
merged/matched by. -/
structure NKey where
  label : String
  key : PropMap
  deriving DecidableEq, Repr

/-- A graph node: identity plus the properties the `SET` clauses maintain. -/
structure Node where
  nk : NKey
  props : PropMap
  deriving DecidableEq, Repr

/-- A directed, typed edge between two nodes. -/
structure Edge where
  src : NKey
  typ : String
  dst : NKey
  deriving DecidableEq, Repr

/-- The graph state: nodes in creation order, edges in creation order. -/
structure Graph where
  nodes : List Node
  edges : List Edge
  deriving DecidableEq, Repr

/-- The empty graph. -/
def Graph.empty : Graph := ⟨[], []⟩

/-- Insert into a sorted association list, overwriting an existing key. -/
def insertSorted : PropMap → String → Json → PropMap
  | [], k, v => [(k, v)]
  | p :: ps, k, v =>
      if k < p.1 then (k, v) :: p :: ps
      else if k = p.1 then (k, v) :: ps
      else p :: insertSorted ps k v

/-- `SET n.k = $v`: a null value removes the property, any other value
stores it. -/
def setProp (ps : PropMap) (k : String) (v : Json) : PropMap :=
  match v with
  | .null => ps.filter fun p => p.1 ≠ k
  | v => insertSorted ps k v

/-- Apply a `SET` clause's assignments left to right. -/
def setProps (ps : PropMap) (kvs : List (String × Json)) : PropMap :=
  kvs.foldl (fun a p => setProp a p.1 p.2) ps

/-- Property lookup. -/
def getProp : PropMap → String → Option Json
  | [], _ => none
  | p :: ps, k => if p.1 = k then some p.2 else getProp ps k

/-- Whether a node with this identity exists (`MATCH` by label and key). -/
def Graph.findNode (g : Graph) (nk : NKey) : Bool :=
  g.nodes.any fun n => n.nk == nk

/-- `MERGE` on a node pattern: create it (with no further properties) only
when no node matches. -/
def Graph.mergeNode (g : Graph) (nk : NKey) : Graph :=
  if g.findNode nk then g else ⟨g.nodes ++ [⟨nk, []⟩], g.edges⟩

/-- Run a `SET` clause on the matched node. -/
def Graph.setNodeProps (g : Graph) (nk : NKey) (kvs : List (String × Json)) : Graph :=
  ⟨g.nodes.map fun n => if n.nk = nk then ⟨n.nk, setProps n.props kvs⟩ else n, g.edges⟩

/-- `MERGE` on an edge pattern: add the edge only when absent. -/
def Graph.mergeEdge (g : Graph) (e : Edge) : Graph :=
  if g.edges.contains e then g else ⟨g.nodes, g.edges ++ [e]⟩

/-- The property value stored on the node identified by `nk`, if any. -/
def Graph.prop (g : Graph) (nk : NKey) (k : String) : Option Json :=
  match g.nodes.find? (fun n => n.nk == nk) with
  | some n => getProp n.props k
  | none => none

/-- Identity of the Schema node a document's queries address. -/
def skey (sid : Json) : NKey := ⟨"Schema", [("id", sid)]⟩

/-- Identity of an Attribute node: its `name`, global across schemas. -/
def akey (nm : Json) : NKey := ⟨"Attribute", [("name", nm)]⟩

/-- Identity of a Meta node: the `(name, schema_id, language)` triple. -/
def mkey (nm sid lang : Json) : NKey :=
  ⟨"Meta", [("name", nm), ("schema_id", sid), ("language", lang)]⟩

/-- The key/value list a query's `SET` clause assigns. -/
def qSetList : Query → List (String × Json)
  | .schemaQ _ nm cbid ty =>
      [("name", .str nm), ("displayName", .str nm), ("capture_base_id", cbid), ("type", ty)]
  | .attrQ _ ty u d f v c _ =>
      [("type", ty), ("unit", u), ("description", d), ("format", f),
       ("vocabulary", v), ("codes", c)]
  | .metaQ _ _ _ d => [("description", d)]
  | .orderingQ _ ao eco => [("attribute_ordering", ao), ("entry_code_ordering", .str eco)]

/-- Execute one emitted query against the graph. -/
def applyQ (g : Graph) : Query → Graph
  | q@(.schemaQ sid _ _ _) =>
      Graph.setNodeProps (g.mergeNode (skey sid)) (skey sid) (qSetList q)
  | q@(.attrQ nm _ _ _ _ _ _ sid) =>
      let g1 := Graph.setNodeProps (g.mergeNode (akey nm)) (akey nm) (qSetList q)
      if g1.findNode (skey sid) then g1.mergeEdge ⟨skey sid, "HAS_ATTRIBUTE", akey nm⟩ else g1
  | q@(.metaQ nm sid lang _) =>
      let g1 := Graph.setNodeProps (g.mergeNode (mkey nm sid lang)) (mkey nm sid lang) (qSetList q)
      if g1.findNode (skey sid) then g1.mergeEdge ⟨skey sid, "HAS_META", mkey nm sid lang⟩ else g1
  | q@(.orderingQ sid _ _) =>
      if g.findNode (skey sid) then Graph.setNodeProps g (skey sid) (qSetList q) else g

/-- Execute an emitted query sequence in order. -/
def applyAll (g : Graph) : List Query → Graph
  | [] => g
  | q :: qs => applyAll (applyQ g q) qs

/-- Strictly-sorted property maps (canonical representation of Neo4j's
unordered property maps). -/
def PropMap.Sorted (ps : PropMap) : Prop := ps.Pairwise fun a b => a.1 < b.1

/-- Graph well-formedness: node identities are distinct and every property
map is in canonical sorted form.  It holds for the empty graph and is
preserved by every query. -/
def Graph.WF (g : Graph) : Prop :=
  (g.nodes.map Node.nk).Nodup ∧ ∀ n ∈ g.nodes, PropMap.Sorted n.props

instance : DecidablePred Graph.WF := fun g => by
  unfold Graph.WF PropMap.Sorted
  infer_instance

/-! ## Projections of queries used by the proofs -/

/-- A stored property value: `SET k = null` stores nothing. -/
def optOf : Json → Option Json
  | .null => none
  | v => some v

/-- The last value a `SET` key/value list assigns to `k`, if any. -/
def lastVal : List (String × Json) → String → Option Json
  | [], _ => none
  | (k0, v0) :: rest, k =>
      match lastVal rest k with
      | some v => some v
      | none => if k0 = k then some v0 else none

/-- The `schema_id` parameter every query carries. -/
def qSid : Query → Json
  | .schemaQ sid _ _ _ => sid
  | .attrQ _ _ _ _ _ _ _ sid => sid
  | .metaQ _ sid _ _ => sid
  | .orderingQ sid _ _ => sid

/-- Whether the query starts with a node `MERGE` (all but the ordering
update, which only `MATCH`es). -/
def qMerges : Query → Bool
  | .orderingQ _ _ _ => false
  | _ => true

/-- The identity of the node whose properties the query sets. -/
def qTarget : Query → NKey
  | .schemaQ sid _ _ _ => skey sid
  | .attrQ nm _ _ _ _ _ _ _ => akey nm
  | .metaQ nm sid lang _ => mkey nm sid lang
  | .orderingQ sid _ _ => skey sid

/-- The edge the query merges, if any. -/
def qEdge : Query → Option Edge
  | .attrQ nm _ _ _ _ _ _ sid => some ⟨skey sid, "HAS_ATTRIBUTE", akey nm⟩
  | .metaQ nm sid lang _ => some ⟨skey sid, "HAS_META", mkey nm sid lang⟩
  | _ => none

/-- The value the query's `SET` clause assigns to property `k`, if it
assigns one. -/
def qVal (q : Query) (k : String) : Option Json := lastVal (qSetList q) k

/-- The query writes property `k` of the node identified by `nk`. -/
def qWrites (q : Query) (nk : NKey) (k : String) : Prop :=
  nk = qTarget q ∧ (qVal q k).isSome

instance (q : Query) (nk : NKey) (k : String) : Decidable (qWrites q nk k) := by
  unfold qWrites
  infer_instance

/-- `applyQ` through the projections: merge the target (except for the
ordering update, which requires it to exist), run the `SET` clause, then
merge the query's edge when its source exists. -/
theorem applyQ_eq (g : Graph) (q : Query) :
    applyQ g q =
      if qMerges q then
        let g1 := Graph.setNodeProps (g.mergeNode (qTarget q)) (qTarget q) (qSetList q)
        match qEdge q with
        | some e => if g1.findNode e.src then g1.mergeEdge e else g1
        | none => g1
      else if g.findNode (qTarget q) then Graph.setNodeProps g (qTarget q) (qSetList q)
      else g := by
  cases q <;> rfl

/-! ## Property-map lemmas -/

theorem getProp_insertSorted (ps : PropMap) (k : String) (v : Json) (k' : String) :
    getProp (insertSorted ps k v) k' = if k' = k then some v else getProp ps k' := by
  induction ps with
  | nil =>
      by_cases h : k' = k
      · subst h; simp [insertSorted, getProp]
      · rw [if_neg h]
        simp only [insertSorted, getProp]
        rw [if_neg fun hh => h hh.symm]
  | cons p ps ih =>
      simp only [insertSorted]
      by_cases h1 : k < p.1
      · rw [if_pos h1]
        by_cases h : k' = k
        · subst h; simp [getProp]
        · rw [if_neg h]
          simp only [getProp]
          rw [if_neg fun hh => h hh.symm]
      · rw [if_neg h1]
        by_cases h2 : k = p.1
        · rw [if_pos h2]
          by_cases h : k' = k
          · subst h; simp [getProp]
          · rw [if_neg h]
            simp only [getProp]
            rw [if_neg fun hh => h hh.symm, if_neg fun hh => h (h2.trans hh).symm]
        · rw [if_neg h2]
          simp only [getProp, ih]
          by_cases h3 : p.1 = k'
          · have : ¬ k' = k := fun hh => h2 ((hh ▸ h3).symm)
            rw [if_pos h3, if_neg this, if_pos h3]
          · rw [if_neg h3, if_neg h3]

theorem getProp_filterNe (ps : PropMap) (k k' : String) :
    getProp (ps.filter fun p => p.1 ≠ k) k' = if k' = k then none else getProp ps k' := by
  induction ps with
  | nil => simp [getProp]
  | cons p ps ih =>
      by_cases h1 : p.1 = k
      · rw [List.filter_cons, if_neg (by simp [h1])]
        simp only [ih]
        by_cases h : k' = k
        · rw [if_pos h, if_pos h]
        · rw [if_neg h, if_neg h]
          simp only [getProp]
          rw [if_neg fun hh => h (hh.symm.trans h1)]
      · rw [List.filter_cons, if_pos (by simp [h1])]
        simp only [getProp, ih]
        by_cases h3 : p.1 = k'
        · have : ¬ k' = k := fun hh => h1 (h3.trans hh)
          rw [if_pos h3, if_neg this, if_pos h3]
        · rw [if_neg h3, if_neg h3]

theorem getProp_setProp (ps : PropMap) (k : String) (v : Json) (k' : String) :
    getProp (setProp ps k v) k' = if k' = k then optOf v else getProp ps k' := by
  cases v <;>
    simp only [setProp, optOf, getProp_insertSorted, getProp_filterNe]

theorem lastVal_nil (k : String) : lastVal [] k = none := rfl

theorem getProp_setProps (ps : PropMap) (kvs : List (String × Json)) (k : String) :
    getProp (setProps ps kvs) k =
      ((lastVal kvs k).elim (getProp ps k) optOf) := by
  induction kvs generalizing ps with
  | nil => rfl
  | cons p rest ih =>
      obtain ⟨k0, v0⟩ := p
      have hstep : setProps ps ((k0, v0) :: rest) = setProps (setProp ps k0 v0) rest := rfl
      rw [hstep, ih]
      show _ = ((match lastVal rest k with
        | some v => some v
        | none => if k0 = k then some v0 else none).elim (getProp ps k) optOf)
      rcases h : lastVal rest k with _ | v
      · simp only [h]
        by_cases hk : k0 = k
        · rw [if_pos hk]
          simp only [Option.elim, getProp_setProp]
          rw [if_pos hk.symm]
        · rw [if_neg hk]
          simp only [Option.elim, getProp_setProp]
          rw [if_neg fun hh => hk hh.symm]
      · simp only [h]
        rfl

theorem getProp_setProps_frame (ps : PropMap) (kvs : List (String × Json)) (k : String)
    (h : lastVal kvs k = none) : getProp (setProps ps kvs) k = getProp ps k := by
  rw [getProp_setProps, h]
  rfl

theorem getProp_setProps_write (ps : PropMap) (kvs : List (String × Json)) (k : String)
    (v : Json) (h : lastVal kvs k = some v) : getProp (setProps ps kvs) k = optOf v := by
  rw [getProp_setProps, h]
  rfl

theorem mem_insertSorted (ps : PropMap) (k : String) (v : Json) (x : String × Json)
    (hx : x ∈ insertSorted ps k v) : x = (k, v) ∨ x ∈ ps := by
  induction ps with
  | nil => simpa [insertSorted] using hx
  | cons p ps ih =>
      simp only [insertSorted] at hx
      by_cases h1 : k < p.1
      · rw [if_pos h1] at hx
        simp only [List.mem_cons] at hx
        rcases hx with h | h | h
        · exact Or.inl h
        · exact Or.inr (by simp [h])
        · exact Or.inr (List.mem_cons_of_mem _ h)
      · rw [if_neg h1] at hx
        by_cases h2 : k = p.1
        · rw [if_pos h2] at hx
          simp only [List.mem_cons] at hx
          rcases hx with h | h
          · exact Or.inl h
          · exact Or.inr (List.mem_cons_of_mem _ h)
        · rw [if_neg h2] at hx
          simp only [List.mem_cons] at hx
          rcases hx with h | h
          · exact Or.inr (by simp [h])
          · rcases ih h with h' | h'
            · exact Or.inl h'
            · exact Or.inr (List.mem_cons_of_mem _ h')

theorem Sorted_insertSorted (ps : PropMap) (k : String) (v : Json)
    (h : ps.Sorted) : (insertSorted ps k v).Sorted := by
  induction ps with
  | nil => simp [insertSorted, PropMap.Sorted]
  | cons p ps ih =>
      rw [PropMap.Sorted, List.pairwise_cons] at h
      obtain ⟨hp, hps⟩ := h
      simp only [insertSorted]
      by_cases h1 : k < p.1
      · rw [if_pos h1]
        rw [PropMap.Sorted, List.pairwise_cons]
        refine ⟨?_, ?_⟩
        · intro x hx
          simp only [List.mem_cons] at hx
          rcases hx with h | h
          · simpa [h] using h1
          · exact lt_trans h1 (hp _ h)
        · rw [List.pairwise_cons]
          exact ⟨hp, hps⟩
      · rw [if_neg h1]
        by_cases h2 : k = p.1
        · rw [if_pos h2]
          rw [PropMap.Sorted, List.pairwise_cons]
          exact ⟨fun x hx => h2 ▸ hp x hx, hps⟩
        · rw [if_neg h2]
          rw [PropMap.Sorted, List.pairwise_cons]
          refine ⟨?_, ih hps⟩
          intro x hx
          rcases mem_insertSorted _ _ _ _ hx with h | h
          · have : p.1 < k := lt_of_le_of_ne (not_lt.mp h1) fun hh => h2 hh.symm
            simpa [h] using this
          · exact hp _ h

theorem Sorted_setProp (ps : PropMap) (k : String) (v : Json)
    (h : ps.Sorted) : (setProp ps k v).Sorted := by
  cases v with
  | null => exact List.Pairwise.sublist (List.filter_sublist _) h
  | bool b => exact Sorted_insertSorted _ _ _ h
  | num n => exact Sorted_insertSorted _ _ _ h
  | str s => exact Sorted_insertSorted _ _ _ h
  | arr xs => exact Sorted_insertSorted _ _ _ h
  | obj kvs => exact Sorted_insertSorted _ _ _ h

theorem Sorted_setProps (ps : PropMap) (kvs : List (String × Json))
    (h : ps.Sorted) : (setProps ps kvs).Sorted := by
  induction kvs generalizing ps with
  | nil => exact h
  | cons p rest ih => exact ih _ (Sorted_setProp _ _ _ h)

theorem getProp_eq_none (ps : PropMap) (k : String)
    (h : ∀ p ∈ ps, p.1 ≠ k) : getProp ps k = none := by
  induction ps with
  | nil => rfl
  | cons p ps ih =>
      simp only [getProp]
      rw [if_neg (h p (by simp))]
      exact ih fun x hx => h x (List.mem_cons_of_mem _ hx)

theorem getProp_mem (ps : PropMap) (k : String) (v : Json)
    (h : getProp ps k = some v) : ∃ p ∈ ps, p.1 = k := by
  induction ps with
  | nil => simp [getProp] at h
  | cons p ps ih =>
      simp only [getProp] at h
      by_cases h1 : p.1 = k
      · exact ⟨p, by simp, h1⟩
      · rw [if_neg h1] at h
        obtain ⟨x, hx, hk⟩ := ih h
        exact ⟨x, List.mem_cons_of_mem _ hx, hk⟩

theorem PropMap.ext_sorted (ps : PropMap) : ∀ qs : PropMap, ps.Sorted → qs.Sorted →
    (∀ k, getProp ps k = getProp qs k) → ps = qs := by
  induction ps with
  | nil =>
      intro qs _ _ h
      cases qs with
      | nil => rfl
      | cons q qs =>
          have := h q.1
          simp [getProp] at this
  | cons p ps ih =>
      intro qs hps hqs h
      cases qs with
      | nil =>
          have := h p.1
          simp [getProp] at this
      | cons q qs =>
          rw [PropMap.Sorted, List.pairwise_cons] at hps hqs
          obtain ⟨hp, hps'⟩ := hps
          obtain ⟨hq, hqs'⟩ := hqs
          have hkeys : p.1 = q.1 := by
            by_contra hne
            have h1 := h p.1
            have h2 := h q.1
            simp only [getProp, if_pos rfl] at h1 h2
            rw [if_neg fun hh : q.1 = p.1 => hne hh.symm] at h1
            rw [if_neg hne] at h2
            obtain ⟨x, hx, hxk⟩ := getProp_mem _ _ _ h1.symm
            obtain ⟨y, hy, hyk⟩ := getProp_mem _ _ _ h2
            have hlt1 : q.1 < p.1 := hxk ▸ hq x hx
            have hlt2 : p.1 < q.1 := hyk ▸ hp y hy
            exact absurd hlt2 (not_lt.mpr (le_of_lt hlt1))
          have hvals : p.2 = q.2 := by
            have h1 := h p.1
            simp only [getProp, if_pos rfl, if_pos hkeys.symm] at h1
            exact Option.some_injective _ h1
          have htails : ps = qs := by
            refine ih qs hps' hqs' fun k => ?_
            by_cases hk : k = p.1
            · subst hk
              have e1 : getProp ps p.1 = none :=
                getProp_eq_none _ _ fun x hx => ne_of_gt (hp x hx)
              have e2 : getProp qs p.1 = none := by
                rw [hkeys]
                exact getProp_eq_none _ _ fun x hx => ne_of_gt (hq x hx)
              rw [e1, e2]
            · have hthis := h k
              simp only [getProp] at hthis
              rw [if_neg fun hh => hk hh.symm,
                if_neg fun hh => hk (hkeys.trans hh).symm] at hthis
              exact hthis
          calc p :: ps = (p.1, p.2) :: ps := by rw [Prod.mk.eta]
            _ = (q.1, q.2) :: qs := by rw [hkeys, hvals, htails]
            _ = q :: qs := by rw [Prod.mk.eta]

/-! ## Graph lemmas -/

theorem beq_false_of_ne {α : Type} [DecidableEq α] {a b : α} (h : a ≠ b) :
    (a == b) = false := by
  cases hb : a == b with
  | false => rfl
  | true => exact absurd (eq_of_beq hb) h

/-- The node identities present in a graph, in creation order. -/
def nkList (g : Graph) : List NKey := g.nodes.map Node.nk

theorem findNode_iff (g : Graph) (nk : NKey) : g.findNode nk = true ↔ nk ∈ nkList g := by
  simp [Graph.findNode, nkList, List.any_eq_true, List.mem_map]

theorem findNode_eq_of_nkList_eq {τ σ : Graph} (h : nkList τ = nkList σ) (nk : NKey) :
    τ.findNode nk = σ.findNode nk := by
  cases hb : σ.findNode nk with
  | true => exact (findNode_iff τ nk).mpr (h ▸ (findNode_iff σ nk).mp hb)
  | false =>
      cases hb2 : τ.findNode nk with
      | false => rfl
      | true =>
          have hmem := (findNode_iff σ nk).mpr (h ▸ (findNode_iff τ nk).mp hb2)
          rw [hb] at hmem
          exact Bool.noConfusion hmem

theorem mergeNode_found (g : Graph) (nk : NKey) (h : g.findNode nk = true) :
    g.mergeNode nk = g := by
  simp [Graph.mergeNode, h]

theorem nodes_mergeNode_new (g : Graph) (nk : NKey) (h : g.findNode nk = false) :
    (g.mergeNode nk).nodes = g.nodes ++ [⟨nk, []⟩] := by
  simp [Graph.mergeNode, h]

theorem edges_mergeNode (g : Graph) (nk : NKey) : (g.mergeNode nk).edges = g.edges := by
  unfold Graph.mergeNode
  split <;> rfl

theorem findNode_mergeNode_self (g : Graph) (nk : NKey) :
    (g.mergeNode nk).findNode nk = true := by
  cases h : g.findNode nk with
  | true => rw [mergeNode_found g nk h]; exact h
  | false =>
      rw [findNode_iff, nkList, nodes_mergeNode_new g nk h]
      simp

theorem findNode_mergeNode_mono (g : Graph) (nk nk' : NKey) (h : g.findNode nk' = true) :
    (g.mergeNode nk).findNode nk' = true := by
  cases hf : g.findNode nk with
  | true => rw [mergeNode_found g nk hf]; exact h
  | false =>
      rw [findNode_iff, nkList, nodes_mergeNode_new g nk hf]
      rw [findNode_iff, nkList] at h
      simp only [List.map_append, List.mem_append]
      exact Or.inl h

theorem prop_mergeNode (g : Graph) (nk nk' : NKey) (k : String) :
    (g.mergeNode nk).prop nk' k = g.prop nk' k := by
  cases hf : g.findNode nk with
  | true => rw [mergeNode_found g nk hf]
  | false =>
      unfold Graph.prop
      rw [nodes_mergeNode_new g nk hf, List.find?_append]
      rcases hfind : g.nodes.find? (fun n => n.nk == nk') with _ | n
      · rw [hfind]
        simp only [Option.none_or]
        by_cases he : nk = nk'
        · subst he
          simp [List.find?, getProp]
        · rw [List.find?]
          have hb : ((Node.mk nk [] : Node).nk == nk') = false := beq_false_of_ne he
          rw [hb]
          rfl
      · rw [hfind]
        rfl

/-- Updating properties never changes the list of node identities. -/
theorem map_nk_upd (ns : List Node) (nk : NKey) (kvs : List (String × Json)) :
    (ns.map fun n => if n.nk = nk then Node.mk n.nk (setProps n.props kvs) else n).map Node.nk
      = ns.map Node.nk := by
  induction ns with
  | nil => rfl
  | cons n ns ih =>
      simp only [List.map_cons, ih]
      by_cases h : n.nk = nk
      · rw [if_pos h]
      · rw [if_neg h]

theorem nkList_setNodeProps (g : Graph) (nk : NKey) (kvs : List (String × Json)) :
    nkList (g.setNodeProps nk kvs) = nkList g :=
  map_nk_upd g.nodes nk kvs

theorem edges_setNodeProps (g : Graph) (nk : NKey) (kvs : List (String × Json)) :
    (g.setNodeProps nk kvs).edges = g.edges := rfl

theorem findNode_setNodeProps (g : Graph) (nk : NKey) (kvs : List (String × Json))
    (nk' : NKey) : (g.setNodeProps nk kvs).findNode nk' = g.findNode nk' :=
  findNode_eq_of_nkList_eq (nkList_setNodeProps g nk kvs) nk'

theorem find?_nodes_upd_other (ns : List Node) (nk nk' : NKey) (kvs : List (String × Json))
    (h : nk' ≠ nk) :
    (ns.map fun n => if n.nk = nk then Node.mk n.nk (setProps n.props kvs) else n).find?
        (fun n => n.nk == nk')
      = ns.find? fun n => n.nk == nk' := by
  induction ns with
  | nil => rfl
  | cons n ns ih =>
      simp only [List.map_cons]
      by_cases hm : n.nk = nk
      · rw [if_pos hm]
        have hne : n.nk ≠ nk' := fun hh => h (hh.symm.trans hm)
        rw [List.find?_cons_of_neg _ (by simpa using beq_false_of_ne hne),
          List.find?_cons_of_neg _ (by simpa using beq_false_of_ne hne)]
        exact ih
      · rw [if_neg hm]
        by_cases hk : n.nk = nk'
        · rw [List.find?_cons_of_pos _ (by simpa using hk),
            List.find?_cons_of_pos _ (by simpa using hk)]
        · rw [List.find?_cons_of_neg _ (by simpa using beq_false_of_ne hk),
            List.find?_cons_of_neg _ (by simpa using beq_false_of_ne hk)]
          exact ih

theorem find?_nodes_upd_self (ns : List Node) (nk : NKey) (kvs : List (String × Json)) :
    (ns.map fun n => if n.nk = nk then Node.mk n.nk (setProps n.props kvs) else n).find?
        (fun n => n.nk == nk)
      = (ns.find? fun n => n.nk == nk).map fun n => Node.mk n.nk (setProps n.props kvs) := by
  induction ns with
  | nil => rfl
  | cons n ns ih =>
      simp only [List.map_cons]
      by_cases hm : n.nk = nk
      · rw [if_pos hm]
        rw [List.find?_cons_of_pos _ (by simpa using hm),
          List.find?_cons_of_pos _ (by simpa using hm)]
        rfl
      · rw [if_neg hm]
        rw [List.find?_cons_of_neg _ (by simpa using beq_false_of_ne hm),
          List.find?_cons_of_neg _ (by simpa using beq_false_of_ne hm)]
        exact ih

theorem prop_setNodeProps_other (g : Graph) (nk : NKey) (kvs : List (String × Json))
    (nk' : NKey) (k : String) (h : nk' ≠ nk) :
    (g.setNodeProps nk kvs).prop nk' k = g.prop nk' k := by
  have h1 : (g.setNodeProps nk kvs).nodes.find? (fun n => n.nk == nk')
      = g.nodes.find? fun n => n.nk == nk' := find?_nodes_upd_other g.nodes nk nk' kvs h
  unfold Graph.prop
  rw [h1]

theorem prop_setNodeProps_self (g : Graph) (nk : NKey) (kvs : List (String × Json))
    (k : String) :
    (g.setNodeProps nk kvs).prop nk k =
      ((g.nodes.find? fun n => n.nk == nk).elim none
        fun n => getProp (setProps n.props kvs) k) := by
  have h1 : (g.setNodeProps nk kvs).nodes.find? (fun n => n.nk == nk)
      = (g.nodes.find? fun n => n.nk == nk).map fun n => Node.mk n.nk (setProps n.props kvs) :=
    find?_nodes_upd_self g.nodes nk kvs
  unfold Graph.prop
  rw [h1]
  rcases hfind : g.nodes.find? (fun n => n.nk == nk) with _ | n <;> rw [hfind] <;> rfl

theorem find?_isSome_of_findNode (g : Graph) (nk : NKey) (h : g.findNode nk = true) :
    ∃ n, (g.nodes.find? fun n => n.nk == nk) = some n := by
  have h1 : (g.nodes.find? fun n => n.nk == nk).isSome := by
    rw [List.find?_isSome]
    simpa [Graph.findNode, List.any_eq_true] using h
  exact Option.isSome_iff_exists.mp h1

theorem prop_setNodeProps_write (g : Graph) (nk : NKey) (kvs : List (String × Json))
    (k : String) (v : Json) (hf : g.findNode nk = true) (hl : lastVal kvs k = some v) :
    (g.setNodeProps nk kvs).prop nk k = optOf v := by
  rw [prop_setNodeProps_self]
  obtain ⟨n, hn⟩ := find?_isSome_of_findNode g nk hf
  rw [hn]
  simp only [Option.elim]
  exact getProp_setProps_write _ _ _ _ hl

theorem prop_setNodeProps_key_frame (g : Graph) (nk : NKey) (kvs : List (String × Json))
    (k : String) (hl : lastVal kvs k = none) :
    (g.setNodeProps nk kvs).prop nk k = g.prop nk k := by
  rw [prop_setNodeProps_self]
  unfold Graph.prop
  rcases hfind : g.nodes.find? (fun n => n.nk == nk) with _ | n <;> rw [hfind]
  · rfl
  · simp only [Option.elim]
    exact getProp_setProps_frame _ _ _ hl

theorem nodes_mergeEdge (g : Graph) (e : Edge) : (g.mergeEdge e).nodes = g.nodes := by
  unfold Graph.mergeEdge
  split <;> rfl

theorem prop_mergeEdge (g : Graph) (e : Edge) (nk : NKey) (k : String) :
    (g.mergeEdge e).prop nk k = g.prop nk k := by
  unfold Graph.prop
  rw [nodes_mergeEdge]

theorem nkList_mergeEdge (g : Graph) (e : Edge) : nkList (g.mergeEdge e) = nkList g := by
  unfold nkList
  rw [nodes_mergeEdge]

theorem findNode_mergeEdge (g : Graph) (e : Edge) (nk : NKey) :
    (g.mergeEdge e).findNode nk = g.findNode nk :=
  findNode_eq_of_nkList_eq (nkList_mergeEdge g e) nk

theorem mergeEdge_of_mem (g : Graph) (e : Edge) (h : e ∈ g.edges) : g.mergeEdge e = g := by
  unfold Graph.mergeEdge
  rw [if_pos (List.elem_iff.mpr h)]

theorem mem_edges_mergeEdge_self (g : Graph) (e : Edge) : e ∈ (g.mergeEdge e).edges := by
  by_cases h : e ∈ g.edges
  · rw [mergeEdge_of_mem g e h]
    exact h
  · unfold Graph.mergeEdge
    rw [if_neg fun hc => h (List.elem_iff.mp hc)]
    simp

theorem edges_mergeEdge_mono (g : Graph) (e e' : Edge) (h : e' ∈ g.edges) :
    e' ∈ (g.mergeEdge e).edges := by
  unfold Graph.mergeEdge
  split <;> simp [h]

theorem prop_not_found (g : Graph) (nk : NKey) (k : String) (h : g.findNode nk = false) :
    g.prop nk k = none := by
  unfold Graph.prop
  have hfind : g.nodes.find? (fun n => n.nk == nk) = none := by
    rw [List.find?_eq_none]
    intro n hn hb
    have ht : g.findNode nk = true := by
      simp only [Graph.findNode, List.any_eq_true]
      exact ⟨n, hn, hb⟩
    rw [h] at ht
    exact Bool.noConfusion ht
  rw [hfind]

/-! ## Query-level lemmas -/

theorem findNode_upsert (g : Graph) (t : NKey) (kvs : List (String × Json)) (nk : NKey)
    (h : g.findNode nk = true) :
    (Graph.setNodeProps (g.mergeNode t) t kvs).findNode nk = true := by
  rw [findNode_setNodeProps]
  exact findNode_mergeNode_mono _ _ _ h

theorem findNode_upsert_self (g : Graph) (t : NKey) (kvs : List (String × Json)) :
    (Graph.setNodeProps (g.mergeNode t) t kvs).findNode t = true := by
  rw [findNode_setNodeProps]
  exact findNode_mergeNode_self _ _

theorem prop_upsert_frame (g : Graph) (t : NKey) (kvs : List (String × Json)) (nk : NKey)
    (k : String) (h : nk ≠ t ∨ lastVal kvs k = none) :
    (Graph.setNodeProps (g.mergeNode t) t kvs).prop nk k = g.prop nk k := by
  rcases h with h | h
  · rw [prop_setNodeProps_other _ _ _ _ _ h, prop_mergeNode]
  · by_cases hnk : nk = t
    · subst hnk
      rw [prop_setNodeProps_key_frame _ _ _ _ h, prop_mergeNode]
    · rw [prop_setNodeProps_other _ _ _ _ _ hnk, prop_mergeNode]

theorem prop_upsert_write (g : Graph) (t : NKey) (kvs : List (String × Json)) (k : String)
    (v : Json) (hv : lastVal kvs k = some v) :
    (Graph.setNodeProps (g.mergeNode t) t kvs).prop t k = optOf v :=
  prop_setNodeProps_write _ _ _ _ _ (findNode_mergeNode_self g t) hv

theorem findNode_applyQ_mono (g : Graph) (q : Query) (nk : NKey) (h : g.findNode nk = true) :
    (applyQ g q).findNode nk = true := by
  cases q with
  | schemaQ sid nm cbid ty => exact findNode_upsert _ _ _ _ h
  | attrQ nm ty u d f v c sid =>
      simp only [applyQ]
      split
      · rw [findNode_mergeEdge]
        exact findNode_upsert _ _ _ _ h
      · exact findNode_upsert _ _ _ _ h
  | metaQ nm sid lang d =>
      simp only [applyQ]
      split
      · rw [findNode_mergeEdge]
        exact findNode_upsert _ _ _ _ h
      · exact findNode_upsert _ _ _ _ h
  | orderingQ sid ao eco =>
      simp only [applyQ]
      split
      · rw [findNode_setNodeProps]
        exact h
      · exact h

theorem findNode_applyQ_target (g : Graph) (q : Query) (h : qMerges q = true) :
    (applyQ g q).findNode (qTarget q) = true := by
  cases q with
  | schemaQ sid nm cbid ty => exact findNode_upsert_self _ _ _
  | attrQ nm ty u d f v c sid =>
      simp only [applyQ, qTarget]
      split
      · rw [findNode_mergeEdge]
        exact findNode_upsert_self _ _ _
      · exact findNode_upsert_self _ _ _
  | metaQ nm sid lang d =>
      simp only [applyQ, qTarget]
      split
      · rw [findNode_mergeEdge]
        exact findNode_upsert_self _ _ _
      · exact findNode_upsert_self _ _ _
  | orderingQ sid ao eco => exact Bool.noConfusion h

theorem edges_applyQ_mono (g : Graph) (q : Query) (e : Edge) (h : e ∈ g.edges) :
    e ∈ (applyQ g q).edges := by
  cases q with
  | schemaQ sid nm cbid ty =>
      rw [applyQ, edges_setNodeProps, edges_mergeNode]
      exact h
  | attrQ nm ty u d f v c sid =>
      simp only [applyQ]
      split
      · refine edges_mergeEdge_mono _ _ _ ?_
        rw [edges_setNodeProps, edges_mergeNode]
        exact h
      · rw [edges_setNodeProps, edges_mergeNode]
        exact h
  | metaQ nm sid lang d =>
      simp only [applyQ]
      split
      · refine edges_mergeEdge_mono _ _ _ ?_
        rw [edges_setNodeProps, edges_mergeNode]
        exact h
      · rw [edges_setNodeProps, edges_mergeNode]
        exact h
  | orderingQ sid ao eco =>
      simp only [applyQ]
      split
      · rw [edges_setNodeProps]
        exact h
      · exact h

theorem edge_applyQ_self (g : Graph) (q : Query) (e : Edge) (he : qEdge q = some e)
    (hs : g.findNode e.src = true) : e ∈ (applyQ g q).edges := by
  cases q with
  | schemaQ sid nm cbid ty => exact Option.noConfusion he
  | attrQ nm ty u d f v c sid =>
      obtain rfl := Option.some.inj he
      have hc : (Graph.setNodeProps (g.mergeNode (akey nm)) (akey nm)
          (qSetList (.attrQ nm ty u d f v c sid))).findNode (skey sid) = true :=
        findNode_upsert _ _ _ _ hs
      simp only [applyQ]
      rw [if_pos hc]
      exact mem_edges_mergeEdge_self _ _
  | metaQ nm sid lang d =>
      obtain rfl := Option.some.inj he
      have hc : (Graph.setNodeProps (g.mergeNode (mkey nm sid lang)) (mkey nm sid lang)
          (qSetList (.metaQ nm sid lang d))).findNode (skey sid) = true :=
        findNode_upsert _ _ _ _ hs
      simp only [applyQ]
      rw [if_pos hc]
      exact mem_edges_mergeEdge_self _ _
  | orderingQ sid ao eco => exact Option.noConfusion he

theorem applyQ_noMerge_notfound (g : Graph) (q : Query) (hm : qMerges q = false)
    (hf : g.findNode (qTarget q) = false) : applyQ g q = g := by
  cases q with
  | schemaQ sid nm cbid ty => exact Bool.noConfusion hm
  | attrQ nm ty u d f v c sid => exact Bool.noConfusion hm
  | metaQ nm sid lang d => exact Bool.noConfusion hm
  | orderingQ sid ao eco =>
      simp only [applyQ]
      rw [if_neg]
      rw [qTarget] at hf
      simp [hf]

theorem prop_applyQ_frame (g : Graph) (q : Query) (nk : NKey) (k : String)
    (h : ¬ qWrites q nk k) : (applyQ g q).prop nk k = g.prop nk k := by
  have hcases : nk ≠ qTarget q ∨ lastVal (qSetList q) k = none := by
    rcases not_and_or.mp h with h1 | h1
    · exact Or.inl h1
    · exact Or.inr (Option.not_isSome_iff_eq_none.mp h1)
  cases q with
  | schemaQ sid nm cbid ty => exact prop_upsert_frame _ _ _ _ _ hcases
  | attrQ nm ty u d f v c sid =>
      simp only [applyQ]
      split
      · rw [prop_mergeEdge]
        exact prop_upsert_frame _ _ _ _ _ hcases
      · exact prop_upsert_frame _ _ _ _ _ hcases
  | metaQ nm sid lang d =>
      simp only [applyQ]
      split
      · rw [prop_mergeEdge]
        exact prop_upsert_frame _ _ _ _ _ hcases
      · exact prop_upsert_frame _ _ _ _ _ hcases
  | orderingQ sid ao eco =>
      simp only [applyQ]
      split
      · rcases hcases with h1 | h1
        · exact prop_setNodeProps_other _ _ _ _ _ h1
        · by_cases hnk : nk = qTarget (.orderingQ sid ao eco)
          · subst hnk
            exact prop_setNodeProps_key_frame _ _ _ _ h1
          · exact prop_setNodeProps_other _ _ _ _ _ hnk
      · rfl

theorem prop_applyQ_write (g : Graph) (q : Query) (nk : NKey) (k : String) (v : Json)
    (hw : qWrites q nk k) (hv : qVal q k = some v)
    (hord : qMerges q = false → g.findNode (qTarget q) = true) :
    (applyQ g q).prop nk k = optOf v := by
  obtain ⟨rfl, _⟩ := hw
  cases q with
  | schemaQ sid nm cbid ty => exact prop_upsert_write _ _ _ _ _ hv
  | attrQ nm ty u d f v' c sid =>
      simp only [applyQ]
      split
      · rw [prop_mergeEdge]
        exact prop_upsert_write _ _ _ _ _ hv
      · exact prop_upsert_write _ _ _ _ _ hv
  | metaQ nm sid lang d =>
      simp only [applyQ]
      split
      · rw [prop_mergeEdge]
        exact prop_upsert_write _ _ _ _ _ hv
      · exact prop_upsert_write _ _ _ _ _ hv
  | orderingQ sid ao eco =>
      have hf := hord rfl
      simp only [applyQ, qTarget] at hf ⊢
      rw [if_pos hf]
      exact prop_setNodeProps_write _ _ _ _ _ hf hv

/-! ## Congruence of the node-identity list and edge list under one query -/

theorem nkList_mergeNode_congr (τ σ : Graph) (nk : NKey) (h : nkList τ = nkList σ) :
    nkList (τ.mergeNode nk) = nkList (σ.mergeNode nk) := by
  cases hf : σ.findNode nk with
  | true =>
      rw [mergeNode_found σ nk hf, mergeNode_found τ nk ((findNode_eq_of_nkList_eq h nk).trans hf)]
      exact h
  | false =>
      have hτ : τ.findNode nk = false := (findNode_eq_of_nkList_eq h nk).trans hf
      unfold nkList
      rw [nodes_mergeNode_new τ nk hτ, nodes_mergeNode_new σ nk hf,
        List.map_append, List.map_append]
      have h' : List.map Node.nk τ.nodes = List.map Node.nk σ.nodes := h
      rw [h']

theorem nkList_upsert_congr (τ σ : Graph) (t : NKey) (kvs : List (String × Json))
    (h : nkList τ = nkList σ) :
    nkList (Graph.setNodeProps (τ.mergeNode t) t kvs)
      = nkList (Graph.setNodeProps (σ.mergeNode t) t kvs) := by
  rw [nkList_setNodeProps, nkList_setNodeProps]
  exact nkList_mergeNode_congr τ σ t h

theorem nkList_applyQ_congr (τ σ : Graph) (q : Query) (h : nkList τ = nkList σ) :
    nkList (applyQ τ q) = nkList (applyQ σ q) := by
  cases q with
  | schemaQ sid nm cbid ty => exact nkList_upsert_congr τ σ _ _ h
  | attrQ nm ty u d f v c sid =>
      simp only [applyQ]
      have hc := nkList_upsert_congr τ σ (akey nm) (qSetList (.attrQ nm ty u d f v c sid)) h
      rw [findNode_eq_of_nkList_eq hc (skey sid)]
      split
      · rw [nkList_mergeEdge, nkList_mergeEdge]
        exact hc
      · exact hc
  | metaQ nm sid lang d =>
      simp only [applyQ]
      have hc := nkList_upsert_congr τ σ (mkey nm sid lang) (qSetList (.metaQ nm sid lang d)) h
      rw [findNode_eq_of_nkList_eq hc (skey sid)]
      split
      · rw [nkList_mergeEdge, nkList_mergeEdge]
        exact hc
      · exact hc
  | orderingQ sid ao eco =>
      simp only [applyQ]
      rw [findNode_eq_of_nkList_eq h (skey sid)]
      split
      · rw [nkList_setNodeProps, nkList_setNodeProps]
        exact h
      · exact h

theorem edges_applyQ_congr (τ σ : Graph) (q : Query) (hn : nkList τ = nkList σ)
    (he : τ.edges = σ.edges) : (applyQ τ q).edges = (applyQ σ q).edges := by
  cases q with
  | schemaQ sid nm cbid ty =>
      rw [applyQ, applyQ, edges_setNodeProps, edges_setNodeProps,
        edges_mergeNode, edges_mergeNode]
      exact he
  | attrQ nm ty u d f v c sid =>
      simp only [applyQ]
      have hc := nkList_upsert_congr τ σ (akey nm) (qSetList (.attrQ nm ty u d f v c sid)) hn
      have hedges : (Graph.setNodeProps (τ.mergeNode (akey nm)) (akey nm)
            (qSetList (.attrQ nm ty u d f v c sid))).edges
          = (Graph.setNodeProps (σ.mergeNode (akey nm)) (akey nm)
            (qSetList (.attrQ nm ty u d f v c sid))).edges := by
        rw [edges_setNodeProps, edges_setNodeProps, edges_mergeNode, edges_mergeNode]
        exact he
      rw [findNode_eq_of_nkList_eq hc (skey sid)]
      split
      · unfold Graph.mergeEdge
        rw [hedges]
        split
        · exact hedges
        · rfl
      · exact hedges
  | metaQ nm sid lang d =>
      simp only [applyQ]
      have hc := nkList_upsert_congr τ σ (mkey nm sid lang) (qSetList (.metaQ nm sid lang d)) hn
      have hedges : (Graph.setNodeProps (τ.mergeNode (mkey nm sid lang)) (mkey nm sid lang)
            (qSetList (.metaQ nm sid lang d))).edges
          = (Graph.setNodeProps (σ.mergeNode (mkey nm sid lang)) (mkey nm sid lang)
            (qSetList (.metaQ nm sid lang d))).edges := by
        rw [edges_setNodeProps, edges_setNodeProps, edges_mergeNode, edges_mergeNode]
        exact he
      rw [findNode_eq_of_nkList_eq hc (skey sid)]
      split
      · unfold Graph.mergeEdge
        rw [hedges]
        split
        · exact hedges
        · rfl
      · exact hedges
  | orderingQ sid ao eco =>
      simp only [applyQ]
      rw [findNode_eq_of_nkList_eq hn (skey sid)]
      split
      · rw [edges_setNodeProps, edges_setNodeProps]
        exact he
      · exact he

/-! ## Well-formedness preservation -/

theorem WF_mergeNode (g : Graph) (nk : NKey) (h : g.WF) : (g.mergeNode nk).WF := by
  cases hf : g.findNode nk with
  | true => rw [mergeNode_found g nk hf]; exact h
  | false =>
      obtain ⟨hnd, hsort⟩ := h
      constructor
      · rw [show (g.mergeNode nk).nodes.map Node.nk = nkList (g.mergeNode nk) from rfl]
        unfold nkList
        rw [nodes_mergeNode_new g nk hf, List.map_append]
        rw [List.nodup_append]
        refine ⟨hnd, List.nodup_singleton _, ?_⟩
        intro x hx hx2
        simp only [List.map_cons, List.map_nil, List.mem_singleton] at hx2
        subst hx2
        have htr : g.findNode x = true := (findNode_iff g x).mpr hx
        rw [hf] at htr
        exact Bool.noConfusion htr
      · intro n hn
        rw [nodes_mergeNode_new g nk hf, List.mem_append] at hn
        rcases hn with hn | hn
        · exact hsort n hn
        · simp only [List.mem_singleton] at hn
          subst hn
          exact List.Pairwise.nil

theorem WF_setNodeProps (g : Graph) (nk : NKey) (kvs : List (String × Json)) (h : g.WF) :
    (g.setNodeProps nk kvs).WF := by
  obtain ⟨hnd, hsort⟩ := h
  constructor
  · rw [show (g.setNodeProps nk kvs).nodes.map Node.nk = nkList (g.setNodeProps nk kvs)
      from rfl]
    rw [nkList_setNodeProps]
    exact hnd
  · intro n hn
    rw [show (g.setNodeProps nk kvs).nodes
        = g.nodes.map fun n => if n.nk = nk then Node.mk n.nk (setProps n.props kvs) else n
      from rfl] at hn
    rw [List.mem_map] at hn
    obtain ⟨m, hm, hmn⟩ := hn
    by_cases hc : m.nk = nk
    · rw [if_pos hc] at hmn
      subst hmn
      exact Sorted_setProps _ _ (hsort m hm)
    · rw [if_neg hc] at hmn
      subst hmn
      exact hsort m hm

theorem WF_mergeEdge (g : Graph) (e : Edge) (h : g.WF) : (g.mergeEdge e).WF := by
  obtain ⟨hnd, hsort⟩ := h
  constructor
  · rw [show (g.mergeEdge e).nodes.map Node.nk = nkList (g.mergeEdge e) from rfl]
    rw [nkList_mergeEdge]
    exact hnd
  · intro n hn
    rw [nodes_mergeEdge] at hn
    exact hsort n hn

theorem WF_applyQ (g : Graph) (q : Query) (h : g.WF) : (applyQ g q).WF := by
  cases q with
  | schemaQ sid nm cbid ty => exact WF_setNodeProps _ _ _ (WF_mergeNode _ _ h)
  | attrQ nm ty u d f v c sid =>
      simp only [applyQ]
      split
      · exact WF_mergeEdge _ _ (WF_setNodeProps _ _ _ (WF_mergeNode _ _ h))
      · exact WF_setNodeProps _ _ _ (WF_mergeNode _ _ h)
  | metaQ nm sid lang d =>
      simp only [applyQ]
      split
      · exact WF_mergeEdge _ _ (WF_setNodeProps _ _ _ (WF_mergeNode _ _ h))
      · exact WF_setNodeProps _ _ _ (WF_mergeNode _ _ h)
  | orderingQ sid ao eco =>
      simp only [applyQ]
      split
      · exact WF_setNodeProps _ _ _ h
      · exact h

/-! ## Sequence-level lemmas -/

/-- Some query of the list writes property `k` of node `nk`. -/
def WritesIn (qs : List Query) (nk : NKey) (k : String) : Prop :=
  ∃ q ∈ qs, qWrites q nk k

theorem applyAll_append (g : Graph) (l1 l2 : List Query) :
    applyAll g (l1 ++ l2) = applyAll (applyAll g l1) l2 := by
  induction l1 generalizing g with
  | nil => rfl
  | cons q l1 ih =>
      simp only [List.cons_append, applyAll]
      exact ih _

theorem findNode_applyAll_mono (g : Graph) (qs : List Query) (nk : NKey)
    (h : g.findNode nk = true) : (applyAll g qs).findNode nk = true := by
  induction qs generalizing g with
  | nil => exact h
  | cons q qs ih => exact ih _ (findNode_applyQ_mono _ _ _ h)

theorem edges_applyAll_mono (g : Graph) (qs : List Query) (e : Edge) (h : e ∈ g.edges) :
    e ∈ (applyAll g qs).edges := by
  induction qs generalizing g with
  | nil => exact h
  | cons q qs ih => exact ih _ (edges_applyQ_mono _ _ _ h)

theorem WF_applyAll (g : Graph) (qs : List Query) (h : g.WF) : (applyAll g qs).WF := by
  induction qs generalizing g with
  | nil => exact h
  | cons q qs ih => exact ih _ (WF_applyQ _ _ h)

theorem prop_applyAll_frame (g : Graph) (qs : List Query) (nk : NKey) (k : String)
    (h : ¬ WritesIn qs nk k) : (applyAll g qs).prop nk k = g.prop nk k := by
  induction qs generalizing g with
  | nil => rfl
  | cons q qs ih =>
      have h1 : ¬ qWrites q nk k := fun hw => h ⟨q, by simp, hw⟩
      have h2 : ¬ WritesIn qs nk k := fun ⟨q', hq', hw⟩ =>
        h ⟨q', List.mem_cons_of_mem _ hq', hw⟩
      show (applyAll (applyQ g q) qs).prop nk k = g.prop nk k
      rw [ih _ h2, prop_applyQ_frame _ _ _ _ h1]

/-! ## Graph extensionality -/

/-- The property a node list stores, keyed by node identity. -/
def nodesProp (ns : List Node) (nk : NKey) (k : String) : Option Json :=
  match ns.find? fun n => n.nk == nk with
  | some n => getProp n.props k
  | none => none

theorem prop_eq_nodesProp (g : Graph) (nk : NKey) (k : String) :
    g.prop nk k = nodesProp g.nodes nk k := rfl

theorem nodesExt (ns : List Node) : ∀ ms : List Node,
    ns.map Node.nk = ms.map Node.nk →
    (ns.map Node.nk).Nodup →
    (∀ n ∈ ns, PropMap.Sorted n.props) →
    (∀ m ∈ ms, PropMap.Sorted m.props) →
    (∀ nk k, nodesProp ns nk k = nodesProp ms nk k) →
    ns = ms := by
  induction ns with
  | nil =>
      intro ms hmap _ _ _ _
      exact (List.map_eq_nil_iff.mp hmap.symm).symm
  | cons n ns ih =>
      intro ms hmap hnd hs1 hs2 hp
      cases ms with
      | nil => exact absurd hmap (by simp)
      | cons m ms' =>
          simp only [List.map_cons, List.cons.injEq] at hmap
          obtain ⟨hnk, hmap'⟩ := hmap
          have hprops : n.props = m.props := by
            apply PropMap.ext_sorted _ _ (hs1 n (by simp)) (hs2 m (by simp))
            intro k
            have hpk := hp n.nk k
            unfold nodesProp at hpk
            rw [List.find?_cons_of_pos _ (by simp),
              List.find?_cons_of_pos _ (by simpa using hnk.symm)] at hpk
            exact hpk
          have hheads : n = m := by
            cases n with
            | mk nk1 p1 =>
                cases m with
                | mk nk2 p2 =>
                    have e1 : nk1 = nk2 := hnk
                    have e2 : p1 = p2 := hprops
                    rw [e1, e2]
          have hnotin : n.nk ∉ ns.map Node.nk := (List.nodup_cons.mp hnd).1
          have htails : ns = ms' := by
            refine ih ms' hmap' (List.nodup_cons.mp hnd).2
              (fun x hx => hs1 x (List.mem_cons_of_mem _ hx))
              (fun x hx => hs2 x (List.mem_cons_of_mem _ hx)) ?_
            intro nk k
            by_cases hc : nk = n.nk
            · have h1 : ns.find? (fun x => x.nk == nk) = none := by
                rw [List.find?_eq_none]
                intro x hx hb
                exact absurd (List.mem_map.mpr ⟨x, hx, (eq_of_beq hb).trans hc⟩) hnotin
              have h2 : ms'.find? (fun x => x.nk == nk) = none := by
                rw [List.find?_eq_none]
                intro x hx hb
                refine absurd ?_ hnotin
                rw [hmap']
                exact List.mem_map.mpr ⟨x, hx, (eq_of_beq hb).trans hc⟩
              unfold nodesProp
              rw [h1, h2]
            · have hpk := hp nk k
              unfold nodesProp at hpk
              rw [List.find?_cons_of_neg _
                  (by simpa using beq_false_of_ne (fun hh => hc hh.symm)),
                List.find?_cons_of_neg _
                  (by simpa using beq_false_of_ne (fun hh => hc (hnk.trans hh).symm))] at hpk
              exact hpk
          rw [hheads, htails]

theorem graph_ext (τ σ : Graph) (hτ : τ.WF) (hσ : σ.WF) (hn : nkList τ = nkList σ)
    (he : τ.edges = σ.edges) (hp : ∀ nk k, τ.prop nk k = σ.prop nk k) : τ = σ := by
  have hnodes : τ.nodes = σ.nodes :=
    nodesExt τ.nodes σ.nodes hn hτ.1 hτ.2 hσ.2 fun nk k => hp nk k
  cases τ with
  | mk ns es =>
      cases σ with
      | mk ms fs =>
          have h1 : ns = ms := hnodes
          have h2 : es = fs := he
          rw [h1, h2]

/-! ## Convergence: two runs of one suffix from states that differ only at
positions the suffix overwrites -/

theorem applyAll_congr_writes (qs : List Query) :
    ∀ τ σ : Graph, τ.WF → σ.WF → nkList τ = nkList σ → τ.edges = σ.edges →
      (∀ nk k, τ.prop nk k ≠ σ.prop nk k → WritesIn qs nk k) →
      applyAll τ qs = applyAll σ qs := by
  induction qs with
  | nil =>
      intro τ σ hτ hσ hn he hd
      refine graph_ext τ σ hτ hσ hn he fun nk k => ?_
      by_contra hne
      obtain ⟨q, hq, _⟩ := hd nk k hne
      exact absurd hq (List.not_mem_nil q)
  | cons q qs ih =>
      intro τ σ hτ hσ hn he hd
      show applyAll (applyQ τ q) qs = applyAll (applyQ σ q) qs
      refine ih (applyQ τ q) (applyQ σ q) (WF_applyQ _ _ hτ) (WF_applyQ _ _ hσ)
        (nkList_applyQ_congr _ _ _ hn) (edges_applyQ_congr _ _ _ hn he) ?_
      intro nk k hdiff
      by_cases hw : qWrites q nk k
      · obtain ⟨hnk, hsome⟩ := hw
        obtain ⟨v, hv⟩ := Option.isSome_iff_exists.mp hsome
        cases hm : qMerges q with
        | true =>
            have h1 := prop_applyQ_write τ q nk k v ⟨hnk, hsome⟩ hv
              fun hc => Bool.noConfusion (hm.symm.trans hc)
            have h2 := prop_applyQ_write σ q nk k v ⟨hnk, hsome⟩ hv
              fun hc => Bool.noConfusion (hm.symm.trans hc)
            rw [h1, h2] at hdiff
            exact absurd rfl hdiff
        | false =>
            cases hfs : σ.findNode (qTarget q) with
            | true =>
                have hft : τ.findNode (qTarget q) = true :=
                  (findNode_eq_of_nkList_eq hn _).trans hfs
                have h1 := prop_applyQ_write τ q nk k v ⟨hnk, hsome⟩ hv fun _ => hft
                have h2 := prop_applyQ_write σ q nk k v ⟨hnk, hsome⟩ hv fun _ => hfs
                rw [h1, h2] at hdiff
                exact absurd rfl hdiff
            | false =>
                have hft : τ.findNode (qTarget q) = false :=
                  (findNode_eq_of_nkList_eq hn _).trans hfs
                rw [applyQ_noMerge_notfound _ _ hm hft,
                  applyQ_noMerge_notfound _ _ hm hfs] at hdiff
                have e1 : τ.prop nk k = none := prop_not_found _ _ _ (by rw [hnk]; exact hft)
                have e2 : σ.prop nk k = none := prop_not_found _ _ _ (by rw [hnk]; exact hfs)
                rw [e1, e2] at hdiff
                exact absurd rfl hdiff
      · rw [prop_applyQ_frame _ _ _ _ hw, prop_applyQ_frame _ _ _ _ hw] at hdiff
        obtain ⟨q', hq', hwq'⟩ := hd nk k hdiff
        rcases List.mem_cons.mp hq' with rfl | hmem
        · exact absurd hwq' hw
        · exact ⟨q', hmem, hwq'⟩

/-! ## Replay of the emitted sequence is absorbed -/

theorem qEdge_src (q : Query) (e : Edge) (he : qEdge q = some e) :
    e.src = skey (qSid q) := by
  cases q with
  | schemaQ sid nm cbid ty => exact Option.noConfusion he
  | attrQ nm ty u d f v c sid => obtain rfl := Option.some.inj he; rfl
  | metaQ nm sid lang d => obtain rfl := Option.some.inj he; rfl
  | orderingQ sid ao eco => exact Option.noConfusion he

theorem qTarget_noMerge (q : Query) (hm : qMerges q = false) :
    qTarget q = skey (qSid q) := by
  cases q with
  | schemaQ sid nm cbid ty => exact Bool.noConfusion hm
  | attrQ nm ty u d f v c sid => exact Bool.noConfusion hm
  | metaQ nm sid lang d => exact Bool.noConfusion hm
  | orderingQ sid ao eco => rfl

theorem nkList_applyQ_found (g : Graph) (q : Query) (hm : qMerges q = true)
    (hf : g.findNode (qTarget q) = true) : nkList (applyQ g q) = nkList g := by
  cases q with
  | schemaQ sid nm cbid ty =>
      have hf' : g.findNode (skey sid) = true := hf
      show nkList (Graph.setNodeProps (g.mergeNode (skey sid)) _ _) = nkList g
      rw [nkList_setNodeProps, mergeNode_found _ _ hf']
  | attrQ nm ty u d f v c sid =>
      have hf' : g.findNode (akey nm) = true := hf
      simp only [applyQ]
      split
      · rw [nkList_mergeEdge, nkList_setNodeProps, mergeNode_found _ _ hf']
      · rw [nkList_setNodeProps, mergeNode_found _ _ hf']
  | metaQ nm sid lang d =>
      have hf' : g.findNode (mkey nm sid lang) = true := hf
      simp only [applyQ]
      split
      · rw [nkList_mergeEdge, nkList_setNodeProps, mergeNode_found _ _ hf']
      · rw [nkList_setNodeProps, mergeNode_found _ _ hf']
  | orderingQ sid ao eco => exact Bool.noConfusion hm

theorem nkList_applyQ_noMerge (g : Graph) (q : Query) (hm : qMerges q = false) :
    nkList (applyQ g q) = nkList g := by
  cases q with
  | schemaQ sid nm cbid ty => exact Bool.noConfusion hm
  | attrQ nm ty u d f v c sid => exact Bool.noConfusion hm
  | metaQ nm sid lang d => exact Bool.noConfusion hm
  | orderingQ sid ao eco =>
      simp only [applyQ]
      split
      · rw [nkList_setNodeProps]
      · rfl

theorem edges_applyQ_noEdge (g : Graph) (q : Query) (he : qEdge q = none) :
    (applyQ g q).edges = g.edges := by
  cases q with
  | schemaQ sid nm cbid ty =>
      rw [applyQ, edges_setNodeProps, edges_mergeNode]
  | attrQ nm ty u d f v c sid => exact Option.noConfusion he
  | metaQ nm sid lang d => exact Option.noConfusion he
  | orderingQ sid ao eco =>
      simp only [applyQ]
      split
      · rw [edges_setNodeProps]
      · rfl

theorem edges_applyQ_edgeMem (g : Graph) (q : Query) (e : Edge) (he : qEdge q = some e)
    (hmem : e ∈ g.edges) : (applyQ g q).edges = g.edges := by
  cases q with
  | schemaQ sid nm cbid ty => exact Option.noConfusion he
  | attrQ nm ty u d f v c sid =>
      obtain rfl := Option.some.inj he
      simp only [applyQ]
      split
      · have hmem2 : Edge.mk (skey sid) "HAS_ATTRIBUTE" (akey nm)
            ∈ (Graph.setNodeProps (g.mergeNode (akey nm)) (akey nm)
              (qSetList (.attrQ nm ty u d f v c sid))).edges := by
          rw [edges_setNodeProps, edges_mergeNode]
          exact hmem
        rw [mergeEdge_of_mem _ _ hmem2, edges_setNodeProps, edges_mergeNode]
      · rw [edges_setNodeProps, edges_mergeNode]
  | metaQ nm sid lang d =>
      obtain rfl := Option.some.inj he
      simp only [applyQ]
      split
      · have hmem2 : Edge.mk (skey sid) "HAS_META" (mkey nm sid lang)
            ∈ (Graph.setNodeProps (g.mergeNode (mkey nm sid lang)) (mkey nm sid lang)
              (qSetList (.metaQ nm sid lang d))).edges := by
          rw [edges_setNodeProps, edges_mergeNode]
          exact hmem
        rw [mergeEdge_of_mem _ _ hmem2, edges_setNodeProps, edges_mergeNode]
      · rw [edges_setNodeProps, edges_mergeNode]
  | orderingQ sid ao eco => exact Option.noConfusion he

theorem applyAll_replay (sid : Json) (nm : String) (cbid ty : Json) (rest : List Query)
    (hrest : ∀ q ∈ rest, qSid q = sid) (g : Graph) (hg : g.WF) :
    applyAll (applyAll g (Query.schemaQ sid nm cbid ty :: rest))
        (Query.schemaQ sid nm cbid ty :: rest)
      = applyAll g (Query.schemaQ sid nm cbid ty :: rest) := by
  have hσWF : (applyAll g (Query.schemaQ sid nm cbid ty :: rest)).WF := WF_applyAll _ _ hg
  have hpre_schema : ∀ pre'' : List Query,
      (applyAll g (Query.schemaQ sid nm cbid ty :: pre'')).findNode (skey sid) = true := by
    intro pre''
    show (applyAll (applyQ g (Query.schemaQ sid nm cbid ty)) pre'').findNode (skey sid) = true
    exact findNode_applyAll_mono _ _ _ (findNode_applyQ_target g _ rfl)
  have hschema : (applyAll g (Query.schemaQ sid nm cbid ty :: rest)).findNode (skey sid)
      = true := hpre_schema rest
  have hexists : ∀ pre q suffix, pre ++ q :: suffix = Query.schemaQ sid nm cbid ty :: rest →
      qMerges q = true →
      (applyAll g (Query.schemaQ sid nm cbid ty :: rest)).findNode (qTarget q) = true := by
    intro pre q suffix hsplit hm
    rw [← hsplit, applyAll_append]
    show (applyAll (applyQ (applyAll g pre) q) suffix).findNode (qTarget q) = true
    exact findNode_applyAll_mono _ _ _ (findNode_applyQ_target _ _ hm)
  have hedges : ∀ pre q suffix e, pre ++ q :: suffix = Query.schemaQ sid nm cbid ty :: rest →
      qEdge q = some e →
      e ∈ (applyAll g (Query.schemaQ sid nm cbid ty :: rest)).edges := by
    intro pre q suffix e hsplit he
    cases pre with
    | nil =>
        have hhd : q = Query.schemaQ sid nm cbid ty := by
          simpa using congrArg (fun l => l.head?) hsplit
        rw [hhd] at he
        exact Option.noConfusion he
    | cons p pre'' =>
        have horig := hsplit
        rw [List.cons_append] at hsplit
        simp only [List.cons.injEq] at hsplit
        obtain ⟨hp1, hp2⟩ := hsplit
        have hq_rest : q ∈ rest := by
          rw [← hp2]
          exact List.mem_append_right _ (List.mem_cons_self _ _)
        have hsrc : e.src = skey sid := by
          rw [qEdge_src q e he, hrest q hq_rest]
        have hfpre : (applyAll g (p :: pre'')).findNode e.src = true := by
          rw [hp1, hsrc]
          exact hpre_schema pre''
        rw [← horig, applyAll_append]
        show e ∈ (applyAll (applyQ (applyAll g (p :: pre'')) q) suffix).edges
        exact edges_applyAll_mono _ _ _ (edge_applyQ_self _ _ _ he hfpre)
  have hsurv : ∀ pre q suffix nk k v,
      pre ++ q :: suffix = Query.schemaQ sid nm cbid ty :: rest →
      qWrites q nk k → qVal q k = some v → ¬ WritesIn suffix nk k →
      (applyAll g (Query.schemaQ sid nm cbid ty :: rest)).prop nk k = optOf v := by
    intro pre q suffix nk k v hsplit hw hv hnw
    rw [← hsplit, applyAll_append]
    show (applyAll (applyQ (applyAll g pre) q) suffix).prop nk k = optOf v
    rw [prop_applyAll_frame _ _ _ _ hnw]
    apply prop_applyQ_write _ _ _ _ _ hw hv
    intro hm
    cases pre with
    | nil =>
        have hhd : q = Query.schemaQ sid nm cbid ty := by
          simpa using congrArg (fun l => l.head?) hsplit
        rw [hhd] at hm
        exact Bool.noConfusion hm
    | cons p pre'' =>
        rw [List.cons_append] at hsplit
        simp only [List.cons.injEq] at hsplit
        have hq_rest : q ∈ rest := by
          rw [← hsplit.2]
          exact List.mem_append_right _ (List.mem_cons_self _ _)
        rw [qTarget_noMerge q hm, hrest q hq_rest, hsplit.1]
        exact hpre_schema pre''
  suffices habs : ∀ suffix pre,
      pre ++ suffix = Query.schemaQ sid nm cbid ty :: rest →
      applyAll (applyAll g (Query.schemaQ sid nm cbid ty :: rest)) suffix
        = applyAll g (Query.schemaQ sid nm cbid ty :: rest) by
    exact habs _ [] rfl
  intro suffix
  induction suffix with
  | nil =>
      intro pre _
      rfl
  | cons q suffix' ih =>
      intro pre hsplit
      show applyAll (applyQ (applyAll g (Query.schemaQ sid nm cbid ty :: rest)) q) suffix'
        = applyAll g (Query.schemaQ sid nm cbid ty :: rest)
      have hn : nkList (applyQ (applyAll g (Query.schemaQ sid nm cbid ty :: rest)) q)
          = nkList (applyAll g (Query.schemaQ sid nm cbid ty :: rest)) := by
        cases hm : qMerges q with
        | true => exact nkList_applyQ_found _ _ hm (hexists pre q suffix' hsplit hm)
        | false => exact nkList_applyQ_noMerge _ _ hm
      have he : (applyQ (applyAll g (Query.schemaQ sid nm cbid ty :: rest)) q).edges
          = (applyAll g (Query.schemaQ sid nm cbid ty :: rest)).edges := by
        rcases hqe : qEdge q with _ | e
        · exact edges_applyQ_noEdge _ _ hqe
        · exact edges_applyQ_edgeMem _ _ _ hqe (hedges pre q suffix' e hsplit hqe)
      have hstep : applyAll (applyQ (applyAll g (Query.schemaQ sid nm cbid ty :: rest)) q)
            suffix'
          = applyAll (applyAll g (Query.schemaQ sid nm cbid ty :: rest)) suffix' := by
        refine applyAll_congr_writes suffix' _ _ (WF_applyQ _ _ hσWF) hσWF hn he ?_
        intro nk k hdiff
        by_cases hw : qWrites q nk k
        · by_contra hnw
          have hsome := hw.2
          obtain ⟨v, hv⟩ := Option.isSome_iff_exists.mp hsome
          have hσval := hsurv pre q suffix' nk k v hsplit hw hv hnw
          have happ : (applyQ (applyAll g (Query.schemaQ sid nm cbid ty :: rest)) q).prop nk k
              = optOf v := by
            apply prop_applyQ_write _ _ _ _ _ hw hv
            intro hm
            cases pre with
            | nil =>
                have hhd : q = Query.schemaQ sid nm cbid ty := by
                  simpa using congrArg (fun l => l.head?) hsplit
                rw [hhd] at hm
                exact Bool.noConfusion hm
            | cons p pre'' =>
                rw [List.cons_append] at hsplit
                simp only [List.cons.injEq] at hsplit
                have hq_rest : q ∈ rest := by
                  rw [← hsplit.2]
                  exact List.mem_append_right _ (List.mem_cons_self _ _)
                rw [qTarget_noMerge q hm, hrest q hq_rest]
                exact hschema
          rw [happ, hσval] at hdiff
          exact absurd rfl hdiff
        · rw [prop_applyQ_frame _ _ _ _ hw] at hdiff
          exact absurd rfl hdiff
      rw [hstep]
      refine ih (pre ++ [q]) ?_
      rw [List.append_assoc]
      exact hsplit

/-! ## The emitted list's shape -/

theorem attrQOf_sid (sid units : Json) (descs : LangMap) (formats : Json) (vocs : LangMap)
    (entry_codes : Json) (p : String × Json) (q : Query)
    (h : attrQOf sid units descs formats vocs entry_codes p = .ok q) : qSid q = sid := by
  unfold attrQOf at h
  rcases h1 : pyGet units p.1 Json.null with _ | au
  · rw [h1] at h
    simp [Bind.bind, Except.bind] at h
  · rw [h1] at h
    simp only [Bind.bind, Except.bind] at h
    rcases h2 : pyGet formats p.1 Json.null with _ | af
    · rw [h2] at h
      simp [Except.bind] at h
    · rw [h2] at h
      simp only [Except.bind] at h
      rcases h3 : pyGet entry_codes p.1 Json.null with _ | ac
      · rw [h3] at h
        simp [Except.bind] at h
      · rw [h3] at h
        simp only [Except.bind, pure, Except.pure] at h
        obtain rfl := Except.ok.inj h
        rfl

theorem mapE_mem_sid {α : Type} (f : α → Except PyErr Query) (sid : Json)
    (hf : ∀ a q, f a = .ok q → qSid q = sid) :
    ∀ l out, mapE f l = .ok out → ∀ q ∈ out, qSid q = sid := by
  intro l
  induction l with
  | nil =>
      intro out h q hq
      unfold mapE at h
      simp only [pure, Except.pure] at h
      obtain rfl := Except.ok.inj h
      exact absurd hq (List.not_mem_nil q)
  | cons a as ih =>
      intro out h q hq
      unfold mapE at h
      rcases h1 : f a with _ | b
      · rw [h1] at h
        simp [Bind.bind, Except.bind] at h
      · rw [h1] at h
        simp only [Bind.bind, Except.bind] at h
        rcases h2 : mapE f as with _ | bs
        · rw [h2] at h
          simp [Except.bind] at h
        · rw [h2] at h
          simp only [Except.bind, pure, Except.pure] at h
          obtain rfl := Except.ok.inj h
          rcases List.mem_cons.mp hq with rfl | hmem
          · exact hf a q h1
          · exact ih bs h2 q hmem

theorem metaQsOf_mem_sid (sid : Json) :
    ∀ ms out, metaQsOf sid ms = .ok out → ∀ q ∈ out, qSid q = sid := by
  intro ms
  induction ms with
  | nil =>
      intro out h q hq
      unfold metaQsOf at h
      simp only [pure, Except.pure] at h
      obtain rfl := Except.ok.inj h
      exact absurd hq (List.not_mem_nil q)
  | cons m ms ih =>
      intro out h q hq
      unfold metaQsOf at h
      rcases h1 : pyGet m "name" Json.null with _ | mn
      · rw [h1] at h
        simp [Bind.bind, Except.bind] at h
      · rw [h1] at h
        simp only [Bind.bind, Except.bind] at h
        rcases h2 : pyGet m "description" Json.null with _ | md
        · rw [h2] at h
          simp [Except.bind] at h
        · rw [h2] at h
          simp only [Except.bind] at h
          rcases h3 : pyGet m "language" (Json.str "unknown") with _ | ml
          · rw [h3] at h
            simp [Except.bind] at h
          · rw [h3] at h
            simp only [Except.bind] at h
            rcases h4 : metaQsOf sid ms with _ | mqs
            · rw [h4] at h
              simp [Except.bind] at h
            · rw [h4] at h
              simp only [Except.bind, pure, Except.pure] at h
              obtain rfl := Except.ok.inj h
              by_cases hc : mn.truthy = true
              · rw [if_pos hc] at hq
                rcases List.mem_cons.mp hq with rfl | hmem
                · rfl
                · exact ih mqs h4 q hmem
              · rw [if_neg hc] at hq
                exact ih mqs h4 q hq

theorem emit_shape (nm : String) (n : NormParts) (qs : List Query)
    (h : emit nm n = .ok qs) :
    ∃ rest, qs = Query.schemaQ n.schema_id nm n.capture_base_id n.schema_type :: rest ∧
      ∀ q ∈ rest, qSid q = n.schema_id := by
  unfold emit at h
  rcases h1 : mapE (attrQOf n.schema_id n.units n.descs n.formats n.vocs n.entry_codes)
      n.attrItems with _ | aqs
  · rw [h1] at h
    simp [Bind.bind, Except.bind] at h
  · rw [h1] at h
    simp only [Bind.bind, Except.bind] at h
    rcases h2 : metaQsOf n.schema_id n.metas with _ | mqs
    · rw [h2] at h
      simp [Except.bind] at h
    · rw [h2] at h
      simp only [Except.bind, pure, Except.pure] at h
      obtain rfl := Except.ok.inj h
      refine ⟨_, rfl, ?_⟩
      intro q hq
      rcases List.mem_append.mp hq with hq1 | hq2
      · rcases List.mem_append.mp hq1 with ha | hm
        · exact mapE_mem_sid _ n.schema_id
            (fun a q' hok => attrQOf_sid _ _ _ _ _ _ a q' hok) _ aqs h1 q ha
        · exact metaQsOf_mem_sid n.schema_id n.metas mqs h2 q hm
      · rcases ho : n.ordering_data with _ | ⟨ao, eco⟩
        · rw [ho] at hq2
          exact absurd hq2 (List.not_mem_nil q)
        · rw [ho] at hq2
          simp only [List.mem_singleton] at hq2
          subst hq2
          rfl

theorem importOca_shape (data : Json) (nm uid : String) (qs : List Query)
    (h : importOca data nm uid = .ok qs) :
    ∃ sid cbid ty rest, qs = Query.schemaQ sid nm cbid ty :: rest ∧
      ∀ q ∈ rest, qSid q = sid := by
  unfold importOca at h
  rcases h1 : normalize data uid with _ | n
  · rw [h1] at h
    simp [Bind.bind, Except.bind] at h
  · rw [h1] at h
    simp only [Bind.bind, Except.bind] at h
    obtain ⟨rest, hqs, hsid⟩ := emit_shape nm n qs h
    exact ⟨n.schema_id, n.capture_base_id, n.schema_type, rest, hqs, hsid⟩

theorem normalize_parts (data : Json) (uid : String) (n : NormParts)
    (h : normalize data uid = .ok n) :
    ∃ cb attrs,
      captureBaseOf data = .ok cb ∧
      schemaIdOf data uid = .ok n.schema_id ∧
      pyGet cb "d" Json.null = .ok n.capture_base_id ∧
      pyGet cb "attributes" (.obj .nil) = .ok attrs ∧
      unitsOf data = .ok n.units ∧
      attributeDescriptionsOf data = .ok n.descs ∧
      controlledVocabulariesOf data = .ok n.vocs ∧
      entryCodesOf data = .ok n.entry_codes ∧
      attributeFormatsOf data = .ok n.formats ∧
      metaOverlaysOf data = .ok n.metas ∧
      orderingDataOf data = .ok n.ordering_data ∧
      pyGet data "type" (.str "oca_package/1.0") = .ok n.schema_type ∧
      pyItems attrs = .ok n.attrItems := by
  unfold normalize at h
  rcases h1 : captureBaseOf data with _ | cb
  · rw [h1] at h; simp [Bind.bind, Except.bind] at h
  rw [h1] at h
  simp only [Bind.bind, Except.bind] at h
  rcases h2 : schemaIdOf data uid with _ | sidv
  · rw [h2] at h; simp [Except.bind] at h
  rw [h2] at h
  simp only [Except.bind] at h
  rcases h3 : pyGet cb "d" Json.null with _ | cbid
  · rw [h3] at h; simp [Except.bind] at h
  rw [h3] at h
  simp only [Except.bind] at h
  rcases h4 : pyGet cb "attributes" (Json.obj .nil) with _ | attrs
  · rw [h4] at h; simp [Except.bind] at h
  rw [h4] at h
  simp only [Except.bind] at h
  rcases h5 : unitsOf data with _ | units
  · rw [h5] at h; simp [Except.bind] at h
  rw [h5] at h
  simp only [Except.bind] at h
  rcases h6 : attributeDescriptionsOf data with _ | descs
  · rw [h6] at h; simp [Except.bind] at h
  rw [h6] at h
  simp only [Except.bind] at h
  rcases h7 : controlledVocabulariesOf data with _ | vocs
  · rw [h7] at h; simp [Except.bind] at h
  rw [h7] at h
  simp only [Except.bind] at h
  rcases h8 : entryCodesOf data with _ | ecs
  · rw [h8] at h; simp [Except.bind] at h
  rw [h8] at h
  simp only [Except.bind] at h
  rcases h9 : attributeFormatsOf data with _ | fmts
  · rw [h9] at h; simp [Except.bind] at h
  rw [h9] at h
  simp only [Except.bind] at h
  rcases h10 : metaOverlaysOf data with _ | metas
  · rw [h10] at h; simp [Except.bind] at h
  rw [h10] at h
  simp only [Except.bind] at h
  rcases h11 : orderingDataOf data with _ | od
  · rw [h11] at h; simp [Except.bind] at h
  rw [h11] at h
  simp only [Except.bind] at h
  rcases h12 : pyGet data "type" (Json.str "oca_package/1.0") with _ | sty
  · rw [h12] at h; simp [Except.bind] at h
  rw [h12] at h
  simp only [Except.bind] at h
  rcases h13 : pyItems attrs with _ | items
  · rw [h13] at h; simp [Except.bind] at h
  rw [h13] at h
  simp only [Except.bind, pure, Except.pure] at h
  obtain rfl := Except.ok.inj h
  refine ⟨cb, attrs, ?_, ?_, ?_, ?_, ?_, ?_, ?_, ?_, ?_, ?_, ?_, ?_, ?_⟩ <;> first
    | rfl
    | assumption

theorem importOca_eq_emit (data : Json) (nm uid : String) (n : NormParts)
    (qs : List Query) (hok : importOca data nm uid = .ok qs)
    (hn : normalize data uid = .ok n) : emit nm n = .ok qs := by
  unfold importOca at hok
  rw [hn] at hok
  simpa [Bind.bind, Except.bind] using hok

theorem emit_parts (nm : String) (n : NormParts) (qs : List Query)
    (h : emit nm n = .ok qs) :
    ∃ aqs mqs,
      mapE (attrQOf n.schema_id n.units n.descs n.formats n.vocs n.entry_codes)
          n.attrItems = .ok aqs ∧
      metaQsOf n.schema_id n.metas = .ok mqs ∧
      qs = Query.schemaQ n.schema_id nm n.capture_base_id n.schema_type ::
        (aqs ++ mqs ++ (match n.ordering_data with
          | some (ao, eco) => [Query.orderingQ n.schema_id ao eco.dumps]
          | none => [])) := by
  unfold emit at h
  rcases h1 : mapE (attrQOf n.schema_id n.units n.descs n.formats n.vocs n.entry_codes)
      n.attrItems with _ | aqs
  · rw [h1] at h; simp [Bind.bind, Except.bind] at h
  rw [h1] at h
  simp only [Bind.bind, Except.bind] at h
  rcases h2 : metaQsOf n.schema_id n.metas with _ | mqs
  · rw [h2] at h; simp [Except.bind] at h
  rw [h2] at h
  simp only [Except.bind, pure, Except.pure] at h
  obtain rfl := Except.ok.inj h
  exact ⟨aqs, mqs, rfl, rfl, rfl⟩

theorem mapE_of_mem {α : Type} (f : α → Except PyErr Query) :
    ∀ l out a, mapE f l = .ok out → a ∈ l → ∃ q ∈ out, f a = .ok q := by
  intro l
  induction l with
  | nil =>
      intro out a _ ha
      exact absurd ha (List.not_mem_nil a)
  | cons b bs ih =>
      intro out a h ha
      unfold mapE at h
      rcases h1 : f b with _ | q0
      · rw [h1] at h; simp [Bind.bind, Except.bind] at h
      rw [h1] at h
      simp only [Bind.bind, Except.bind] at h
      rcases h2 : mapE f bs with _ | qs0
      · rw [h2] at h; simp [Except.bind] at h
      rw [h2] at h
      simp only [Except.bind, pure, Except.pure] at h
      obtain rfl := Except.ok.inj h
      rcases List.mem_cons.mp ha with rfl | hmem
      · exact ⟨q0, by simp, h1⟩
      · obtain ⟨q, hq, hfq⟩ := ih qs0 a h2 hmem
        exact ⟨q, List.mem_cons_of_mem _ hq, hfq⟩

theorem mapE_mem_exists {α : Type} (f : α → Except PyErr Query) :
    ∀ l out q, mapE f l = .ok out → q ∈ out → ∃ a ∈ l, f a = .ok q := by
  intro l
  induction l with
  | nil =>
      intro out q h hq
      unfold mapE at h
      simp only [pure, Except.pure] at h
      obtain rfl := Except.ok.inj h
      exact absurd hq (List.not_mem_nil q)
  | cons b bs ih =>
      intro out q h hq
      unfold mapE at h
      rcases h1 : f b with _ | q0
      · rw [h1] at h; simp [Bind.bind, Except.bind] at h
      rw [h1] at h
      simp only [Bind.bind, Except.bind] at h
      rcases h2 : mapE f bs with _ | qs0
      · rw [h2] at h; simp [Except.bind] at h
      rw [h2] at h
      simp only [Except.bind, pure, Except.pure] at h
      obtain rfl := Except.ok.inj h
      rcases List.mem_cons.mp hq with rfl | hmem
      · exact ⟨b, by simp, h1⟩
      · obtain ⟨a, ha, hfa⟩ := ih qs0 q h2 hmem
        exact ⟨a, List.mem_cons_of_mem _ ha, hfa⟩

theorem metaQsOf_mem_shape (sid : Json) :
    ∀ ms out q, metaQsOf sid ms = .ok out → q ∈ out →
      ∃ mn ml md, q = .metaQ mn sid ml md ∧ mn.truthy = true := by
  intro ms
  induction ms with
  | nil =>
      intro out q h hq
      unfold metaQsOf at h
      simp only [pure, Except.pure] at h
      obtain rfl := Except.ok.inj h
      exact absurd hq (List.not_mem_nil q)
  | cons m ms ih =>
      intro out q h hq
      unfold metaQsOf at h
      rcases h1 : pyGet m "name" Json.null with _ | mn
      · rw [h1] at h; simp [Bind.bind, Except.bind] at h
      rw [h1] at h
      simp only [Bind.bind, Except.bind] at h
      rcases h2 : pyGet m "description" Json.null with _ | md
      · rw [h2] at h; simp [Except.bind] at h
      rw [h2] at h
      simp only [Except.bind] at h
      rcases h3 : pyGet m "language" (Json.str "unknown") with _ | ml
      · rw [h3] at h; simp [Except.bind] at h
      rw [h3] at h
      simp only [Except.bind] at h
      rcases h4 : metaQsOf sid ms with _ | mqs
      · rw [h4] at h; simp [Except.bind] at h
      rw [h4] at h
      simp only [Except.bind, pure, Except.pure] at h
      obtain rfl := Except.ok.inj h
      by_cases hc : mn.truthy = true
      · rw [if_pos hc] at hq
        rcases List.mem_cons.mp hq with rfl | hmem
        · exact ⟨mn, ml, md, rfl, hc⟩
        · exact ih mqs q h4 hmem
      · rw [if_neg hc] at hq
        exact ih mqs q h4 hq

theorem metaQsOf_of_mem (sid : Json) :
    ∀ ms out m mn md ml, metaQsOf sid ms = .ok out → m ∈ ms →
      pyGet m "name" Json.null = .ok mn → mn.truthy = true →
      pyGet m "description" Json.null = .ok md →
      pyGet m "language" (Json.str "unknown") = .ok ml →
      Query.metaQ mn sid ml md ∈ out := by
  intro ms
  induction ms with
  | nil =>
      intro out m mn md ml _ hm
      exact absurd hm (List.not_mem_nil m)
  | cons m0 ms ih =>
      intro out m mn md ml h hm hname htr hdesc hlang
      unfold metaQsOf at h
      rcases h1 : pyGet m0 "name" Json.null with _ | mn0
      · rw [h1] at h; simp [Bind.bind, Except.bind] at h
      rw [h1] at h
      simp only [Bind.bind, Except.bind] at h
      rcases h2 : pyGet m0 "description" Json.null with _ | md0
      · rw [h2] at h; simp [Except.bind] at h
      rw [h2] at h
      simp only [Except.bind] at h
      rcases h3 : pyGet m0 "language" (Json.str "unknown") with _ | ml0
      · rw [h3] at h; simp [Except.bind] at h
      rw [h3] at h
      simp only [Except.bind] at h
      rcases h4 : metaQsOf sid ms with _ | mqs
      · rw [h4] at h; simp [Except.bind] at h
      rw [h4] at h
      simp only [Except.bind, pure, Except.pure] at h
      obtain rfl := Except.ok.inj h
      rcases List.mem_cons.mp hm with rfl | hmem
      · rw [h1] at hname
        obtain rfl := Except.ok.inj hname
        rw [h2] at hdesc
        obtain rfl := Except.ok.inj hdesc
        rw [h3] at hlang
        obtain rfl := Except.ok.inj hlang
        rw [if_pos htr]
        exact List.mem_cons_self _ _
      · have hin := ih mqs m mn md ml h4 hmem hname htr hdesc hlang
        by_cases hc : mn0.truthy = true
        · rw [if_pos hc]
          exact List.mem_cons_of_mem _ hin
        · rw [if_neg hc]
          exact hin

theorem attrQOf_ok (sid units : Json) (descs : LangMap) (formats : Json) (vocs : LangMap)
    (entry_codes : Json) (p : String × Json) (q : Query)
    (h : attrQOf sid units descs formats vocs entry_codes p = .ok q) :
    ∃ au af ac, pyGet units p.1 Json.null = .ok au ∧
      pyGet formats p.1 Json.null = .ok af ∧
      pyGet entry_codes p.1 Json.null = .ok ac ∧
      q = .attrQ (.str p.1) p.2 au (dumpsIfTruthy descs p.1) af (dumpsIfTruthy vocs p.1)
        (if ac.truthy then Json.str ac.dumps else Json.null) sid := by
  unfold attrQOf at h
  rcases h1 : pyGet units p.1 Json.null with _ | au
  · rw [h1] at h; simp [Bind.bind, Except.bind] at h
  rw [h1] at h
  simp only [Bind.bind, Except.bind] at h
  rcases h2 : pyGet formats p.1 Json.null with _ | af
  · rw [h2] at h; simp [Except.bind] at h
  rw [h2] at h
  simp only [Except.bind] at h
  rcases h3 : pyGet entry_codes p.1 Json.null with _ | ac
  · rw [h3] at h; simp [Except.bind] at h
  rw [h3] at h
  simp only [Except.bind, pure, Except.pure] at h
  obtain rfl := Except.ok.inj h
  exact ⟨au, af, ac, rfl, rfl, rfl, rfl⟩

/-! ## lastVal and write-set helpers -/

theorem lastVal_eq_none (kvs : List (String × Json)) (k : String)
    (h : ∀ p ∈ kvs, p.1 ≠ k) : lastVal kvs k = none := by
  induction kvs with
  | nil => rfl
  | cons p rest ih =>
      obtain ⟨k0, v0⟩ := p
      show (match lastVal rest k with
        | some v => some v
        | none => if k0 = k then some v0 else none) = none
      rw [ih fun x hx => h x (List.mem_cons_of_mem _ hx)]
      rw [if_neg (h (k0, v0) (by simp))]

theorem lastVal_none_forall (kvs : List (String × Json)) (k : String) :
    ∀ v, lastVal kvs k = some v → ∃ p ∈ kvs, p.1 = k := by
  induction kvs with
  | nil =>
      intro v hv
      exact Option.noConfusion hv
  | cons p rest ih =>
      obtain ⟨k0, v0⟩ := p
      intro v hv
      rw [show lastVal ((k0, v0) :: rest) k = (match lastVal rest k with
        | some v => some v
        | none => if k0 = k then some v0 else none) from rfl] at hv
      rcases hr : lastVal rest k with _ | w
      · rw [hr] at hv
        simp only at hv
        by_cases hc : k0 = k
        · exact ⟨(k0, v0), by simp, hc⟩
        · rw [if_neg hc] at hv
          exact Option.noConfusion hv
      · obtain ⟨x, hx, hxk⟩ := ih w hr
        exact ⟨x, List.mem_cons_of_mem _ hx, hxk⟩

theorem lastVal_eq_none_of_none (kvs : List (String × Json)) (k : String)
    (h : lastVal kvs k = none) : ∀ p ∈ kvs, p.1 ≠ k := by
  induction kvs with
  | nil =>
      intro p hp
      exact absurd hp (List.not_mem_nil p)
  | cons p0 rest ih =>
      obtain ⟨k0, v0⟩ := p0
      rw [show lastVal ((k0, v0) :: rest) k = (match lastVal rest k with
        | some v => some v
        | none => if k0 = k then some v0 else none) from rfl] at h
      rcases hr : lastVal rest k with _ | w
      · rw [hr] at h
        simp only at h
        intro p hp
        rcases List.mem_cons.mp hp with rfl | hmem
        · intro hk
          rw [if_pos hk] at h
          exact Option.noConfusion h
        · exact ih hr p hmem
      · rw [hr] at h
        exact Option.noConfusion h

theorem lastVal_isSome (kvs : List (String × Json)) (k : String)
    (h : ∃ p ∈ kvs, p.1 = k) : (lastVal kvs k).isSome := by
  rcases hr : lastVal kvs k with _ | v
  · obtain ⟨p, hp, hpk⟩ := h
    exact absurd hpk (lastVal_eq_none_of_none kvs k hr p hp)
  · rfl

/-! ## More sequence-level helpers -/

theorem qMerges_of_label (q : Query) (nk : NKey) (k : String) (hw : qWrites q nk k)
    (hlabel : nk.label ≠ "Schema") : qMerges q = true := by
  cases q with
  | schemaQ sid nm cbid ty => rfl
  | attrQ nm ty u d f v c sid => rfl
  | metaQ nm sid lang d => rfl
  | orderingQ sid ao eco => exact absurd (congrArg NKey.label hw.1) hlabel

theorem prop_eq_preserved (q : Query) (g1 g2 : Graph) (nk : NKey) (k : String)
    (hlabel : nk.label ≠ "Schema") (h : g1.prop nk k = g2.prop nk k) :
    (applyQ g1 q).prop nk k = (applyQ g2 q).prop nk k := by
  by_cases hw : qWrites q nk k
  · have hm := qMerges_of_label q nk k hw hlabel
    obtain ⟨v, hv⟩ := Option.isSome_iff_exists.mp hw.2
    rw [prop_applyQ_write g1 q nk k v hw hv fun hc => Bool.noConfusion (hm.symm.trans hc),
      prop_applyQ_write g2 q nk k v hw hv fun hc => Bool.noConfusion (hm.symm.trans hc)]
  · rw [prop_applyQ_frame _ _ _ _ hw, prop_applyQ_frame _ _ _ _ hw]
    exact h

/-- On a non-Schema node, the final value of a property written somewhere in
the sequence does not depend on the starting state. -/
theorem applyAll_prop_eq (qs : List Query) : ∀ (g1 g2 : Graph) (nk : NKey) (k : String),
    nk.label ≠ "Schema" →
    ((∃ q ∈ qs, qWrites q nk k) ∨ g1.prop nk k = g2.prop nk k) →
    (applyAll g1 qs).prop nk k = (applyAll g2 qs).prop nk k := by
  induction qs with
  | nil =>
      intro g1 g2 nk k _ h
      rcases h with ⟨q, hq, _⟩ | h
      · exact absurd hq (List.not_mem_nil q)
      · exact h
  | cons q qs ih =>
      intro g1 g2 nk k hlabel h
      show (applyAll (applyQ g1 q) qs).prop nk k = (applyAll (applyQ g2 q) qs).prop nk k
      rcases h with ⟨q', hq', hw⟩ | h
      · rcases List.mem_cons.mp hq' with rfl | hmem
        · refine ih _ _ nk k hlabel (Or.inr ?_)
          have hm := qMerges_of_label q' nk k hw hlabel
          obtain ⟨v, hv⟩ := Option.isSome_iff_exists.mp hw.2
          rw [prop_applyQ_write g1 q' nk k v hw hv fun hc =>
              Bool.noConfusion (hm.symm.trans hc),
            prop_applyQ_write g2 q' nk k v hw hv fun hc =>
              Bool.noConfusion (hm.symm.trans hc)]
        · exact ih _ _ nk k hlabel (Or.inl ⟨q', hmem, hw⟩)
      · exact ih _ _ nk k hlabel (Or.inr (prop_eq_preserved q g1 g2 nk k hlabel h))

theorem applyAll_prop_none_preserved (qs : List Query) :
    ∀ (g : Graph) (nk : NKey) (k : String), nk.label ≠ "Schema" → g.prop nk k = none →
    (∀ q ∈ qs, qWrites q nk k → qVal q k = some Json.null) →
    (applyAll g qs).prop nk k = none := by
  induction qs with
  | nil =>
      intro g nk k _ h _
      exact h
  | cons q qs ih =>
      intro g nk k hlabel h hall
      show (applyAll (applyQ g q) qs).prop nk k = none
      refine ih _ nk k hlabel ?_ fun q' hq' => hall q' (List.mem_cons_of_mem _ hq')
      by_cases hw : qWrites q nk k
      · have hm := qMerges_of_label q nk k hw hlabel
        rw [prop_applyQ_write g q nk k Json.null hw (hall q (by simp) hw) fun hc =>
            Bool.noConfusion (hm.symm.trans hc)]
        rfl
      · rw [prop_applyQ_frame _ _ _ _ hw]
        exact h

/-- If every query that writes a given non-Schema position writes null to
it, and at least one does, the final stored value is absent — whatever the
starting graph held there. -/
theorem applyAll_prop_none (qs : List Query) :
    ∀ (g : Graph) (nk : NKey) (k : String), nk.label ≠ "Schema" →
    (∃ q ∈ qs, qWrites q nk k) →
    (∀ q ∈ qs, qWrites q nk k → qVal q k = some Json.null) →
    (applyAll g qs).prop nk k = none := by
  induction qs with
  | nil =>
      intro g nk k _ hex _
      obtain ⟨q, hq, _⟩ := hex
      exact absurd hq (List.not_mem_nil q)
  | cons q qs ih =>
      intro g nk k hlabel hex hall
      show (applyAll (applyQ g q) qs).prop nk k = none
      by_cases hw : qWrites q nk k
      · refine applyAll_prop_none_preserved qs _ nk k hlabel ?_
          fun q' hq' => hall q' (List.mem_cons_of_mem _ hq')
        have hm := qMerges_of_label q nk k hw hlabel
        rw [prop_applyQ_write g q nk k Json.null hw (hall q (by simp) hw) fun hc =>
            Bool.noConfusion (hm.symm.trans hc)]
        rfl
      · obtain ⟨q', hq', hw'⟩ := hex
        rcases List.mem_cons.mp hq' with rfl | hmem
        · exact absurd hw' hw
        · exact ih _ nk k hlabel ⟨q', hmem, hw'⟩
            fun q'' hq'' => hall q'' (List.mem_cons_of_mem _ hq'')

theorem findNode_applyAll_target (g : Graph) (qs : List Query) (q : Query)
    (hq : q ∈ qs) (hm : qMerges q = true) :
    (applyAll g qs).findNode (qTarget q) = true := by
  obtain ⟨l1, l2, rfl⟩ := List.append_of_mem hq
  rw [applyAll_append]
  show (applyAll (applyQ (applyAll g l1) q) l2).findNode (qTarget q) = true
  exact findNode_applyAll_mono _ _ _ (findNode_applyQ_target _ _ hm)

/-- Any edge-carrying query appearing after the Schema upsert of its own
schema id gets its edge into the graph. -/
theorem edge_mem_applyAll (sid : Json) (nm : String) (cbid ty : Json) (rest : List Query)
    (g : Graph) (q : Query) (e : Edge) (hq : q ∈ rest) (he : qEdge q = some e)
    (hsid : qSid q = sid) :
    e ∈ (applyAll g (Query.schemaQ sid nm cbid ty :: rest)).edges := by
  obtain ⟨l1, l2, rfl⟩ := List.append_of_mem hq
  show e ∈ (applyAll (applyQ g (Query.schemaQ sid nm cbid ty)) (l1 ++ q :: l2)).edges
  rw [applyAll_append]
  show e ∈ (applyAll (applyQ (applyAll (applyQ g (Query.schemaQ sid nm cbid ty)) l1) q)
    l2).edges
  refine edges_applyAll_mono _ _ _ (edge_applyQ_self _ _ _ he ?_)
  rw [qEdge_src q e he, hsid]
  exact findNode_applyAll_mono _ _ _ (findNode_applyQ_target g _ rfl)

/-- How many nodes carry a given identity. -/
def countNk (g : Graph) (nk : NKey) : Nat :=
  (g.nodes.filter fun nd => nd.nk == nk).length

theorem countNk_le_one (g : Graph) (nk : NKey) (h : g.WF) : countNk g nk ≤ 1 := by
  have h1 : countNk g nk = (g.nodes.map Node.nk).countP (· == nk) := by
    unfold countNk
    rw [List.countP_map, ← List.countP_eq_length_filter]
    rfl
  rw [h1]
  exact List.nodup_iff_count_le_one.mp h.1 nk

theorem countNk_pos (g : Graph) (nk : NKey) (h : g.findNode nk = true) :
    1 ≤ countNk g nk := by
  obtain ⟨n, hn⟩ := find?_isSome_of_findNode g nk h
  have hmem := List.mem_of_find?_eq_some hn
  have hp := List.find?_some hn
  exact List.length_pos_of_mem (List.mem_filter.mpr ⟨hmem, hp⟩)

theorem countNk_eq_one (g : Graph) (nk : NKey) (hwf : g.WF)
    (h : g.findNode nk = true) : countNk g nk = 1 :=
  Nat.le_antisymm (countNk_le_one g nk hwf) (countNk_pos g nk h)

/-! ## Folding lemmas (multi-language overlays) -/

theorem alGet_cons {κ α : Type} [DecidableEq κ] (p : κ × α) (m : List (κ × α)) (k' : κ) :
    alGet (p :: m) k' = if p.1 = k' then some p.2 else alGet m k' := by
  unfold alGet
  by_cases h : p.1 = k'
  · rw [List.find?_cons_of_pos _ (by simpa using h), if_pos h]
    rfl
  · rw [List.find?_cons_of_neg _ (by simpa using beq_false_of_ne h), if_neg h]

theorem alGet_map_ne {κ α : Type} [DecidableEq κ] (m : List (κ × α)) (k : κ) (v : α)
    (k' : κ) (hne : k' ≠ k) :
    alGet (m.map fun p => if p.1 == k then (k, v) else p) k' = alGet m k' := by
  induction m with
  | nil => rfl
  | cons p m ih =>
      simp only [List.map_cons]
      by_cases hp : (p.1 == k) = true
      · rw [if_pos hp, alGet_cons, alGet_cons]
        have hpk := eq_of_beq hp
        have h1 : ¬ (k = k') := fun hh => hne hh.symm
        have h2 : ¬ (p.1 = k') := fun hh => hne (hh.symm.trans hpk)
        rw [if_neg h1, if_neg h2, ih]
      · rw [if_neg hp, alGet_cons, alGet_cons, ih]

theorem alGet_alSet_found {κ α : Type} [DecidableEq κ] :
    ∀ (m : List (κ × α)) (k : κ) (v : α) (k' : κ), m.any (fun p => p.1 == k) = true →
      alGet (m.map fun p => if p.1 == k then (k, v) else p) k' =
        if k' = k then some v else alGet m k' := by
  intro m k v
  induction m with
  | nil =>
      intro k' h
      simp at h
  | cons p m ih =>
      intro k' hany
      simp only [List.any_cons, Bool.or_eq_true] at hany
      simp only [List.map_cons]
      by_cases hp : (p.1 == k) = true
      · rw [if_pos hp, alGet_cons, alGet_cons]
        have hpk := eq_of_beq hp
        by_cases hk : k' = k
        · rw [if_pos hk, if_pos (show (k, v).1 = k' from hk.symm)]
        · have h2 : ¬ (p.1 = k') := fun hh => hk (hh.symm.trans hpk)
          rw [if_neg (show ¬ ((k, v).1 = k') from fun hh => hk hh.symm), if_neg hk,
            if_neg h2]
          exact alGet_map_ne m k v k' hk
      · have hm : m.any (fun p => p.1 == k) = true := by
          rcases hany with h | h
          · exact absurd h hp
          · exact h
        rw [if_neg hp, alGet_cons, alGet_cons]
        by_cases hk : k' = k
        · have hpne : ¬ (p.1 = k') := fun hh => hp (by rw [hh, hk]; exact beq_self_eq_true k)
          rw [if_neg hpne, ih k' hm, if_pos hk, if_pos hk]
        · rw [ih k' hm, if_neg hk, if_neg hk]

theorem alGet_alSet_new {κ α : Type} [DecidableEq κ] :
    ∀ (m : List (κ × α)) (k : κ) (v : α) (k' : κ), m.any (fun p => p.1 == k) = false →
      alGet (m ++ [(k, v)]) k' = if k' = k then some v else alGet m k' := by
  intro m k v
  induction m with
  | nil =>
      intro k' _
      rw [List.nil_append, alGet_cons]
      by_cases hk : k' = k
      · rw [if_pos hk, if_pos hk.symm]
      · rw [if_neg hk, if_neg fun hh => hk hh.symm]
  | cons p m ih =>
      intro k' hany
      rw [List.any_cons] at hany
      have hparts := Bool.or_eq_false_iff.mp hany
      rw [List.cons_append, alGet_cons, alGet_cons, ih k' hparts.2]
      by_cases hk : k' = k
      · have hpne : ¬ (p.1 = k') := fun hh => by
          have hb := hparts.1
          rw [hh, hk, beq_self_eq_true k] at hb
          exact Bool.noConfusion hb
        rw [if_neg hpne, if_neg hpne]
      · rw [if_neg hk, if_neg hk]

theorem alGet_alSet {κ α : Type} [DecidableEq κ] (m : List (κ × α)) (k : κ) (v : α)
    (k' : κ) : alGet (alSet m k v) k' = if k' = k then some v else alGet m k' := by
  unfold alSet
  by_cases hany : m.any (fun p => p.1 == k) = true
  · rw [if_pos hany]
    exact alGet_alSet_found m k v k' hany
  · rw [if_neg hany]
    exact alGet_alSet_new m k v k' (Bool.eq_false_iff.mpr hany)

/-- The value the folded mapping stores for attribute `a` and language `l`. -/
def lookup2 (m : LangMap) (a : String) (l : Json) : Option Json :=
  match alGet m a with
  | some mm => alGet mm l
  | none => none

theorem lookup2_writestep (acc : LangMap) (a0 : String) (lang v0 : Json) (a : String)
    (l : Json) :
    lookup2 (alSet acc a0 (alSet ((alGet acc a0).getD []) lang v0)) a l =
      if a = a0 ∧ l = lang then some v0 else lookup2 acc a l := by
  unfold lookup2
  rw [alGet_alSet]
  by_cases ha : a = a0
  · rw [if_pos ha]
    show alGet (alSet ((alGet acc a0).getD []) lang v0) l = _
    rw [alGet_alSet]
    by_cases hl : l = lang
    · rw [if_pos hl, if_pos ⟨ha, hl⟩]
    · rw [if_neg hl, if_neg fun hc => hl hc.2, ha]
      rcases hacc : alGet acc a0 with _ | mm
      · rfl
      · rfl
  · rw [if_neg ha, if_neg fun hc => ha hc.1]

theorem writeLang_last (lang : Json) :
    ∀ (kvs : List (String × Json)) (acc out : LangMap),
    writeLang lang kvs acc = .ok out → ∀ (a : String) (l : Json),
    lookup2 out a l =
      if l = lang then
        (match lastVal kvs a with
         | some v => some v
         | none => lookup2 acc a l)
      else lookup2 acc a l := by
  intro kvs
  induction kvs with
  | nil =>
      intro acc out h a l
      unfold writeLang at h
      simp only [pure, Except.pure] at h
      obtain rfl := Except.ok.inj h
      by_cases hl : l = lang
      · rw [if_pos hl]
        rfl
      · rw [if_neg hl]
  | cons p kvs ih =>
      intro acc out h a l
      obtain ⟨a0, v0⟩ := p
      unfold writeLang at h
      by_cases hh : lang.hashable = true
      · rw [if_pos hh] at h
        have hstep := ih _ out h a l
        rw [lookup2_writestep acc a0 lang v0 a l] at hstep
        rw [hstep]
        rw [show lastVal ((a0, v0) :: kvs) a = (match lastVal kvs a with
          | some v => some v
          | none => if a0 = a then some v0 else none) from rfl]
        rcases hlast : lastVal kvs a with _ | w
        · by_cases hl : l = lang
          · rw [if_pos hl, if_pos hl]
            by_cases ha : a = a0
            · rw [if_pos ⟨ha, hl⟩, if_pos (show a0 = a from ha.symm)]
            · rw [if_neg fun hc => ha hc.1, if_neg fun hh2 => ha hh2.symm]
          · rw [if_neg hl, if_neg hl, if_neg fun hc => hl hc.2]
        · by_cases hl : l = lang
          · rw [if_pos hl, if_pos hl]
          · rw [if_neg hl, if_neg hl, if_neg fun hc => hl hc.2]
      · rw [if_neg hh] at h
        simp at h

/-- The last value the overlay entries `(language, items)` write for the
pair `(attribute, language)`. -/
def lastWrite : List (Json × List (String × Json)) → String → Json → Option Json
  | [], _, _ => none
  | (lang, kvs) :: rest, a, l =>
      match lastWrite rest a l with
      | some v => some v
      | none => if l = lang then lastVal kvs a else none

theorem foldLang_lastwins (field : String) :
    ∀ (entries : List Json) (specs : List (Json × List (String × Json)))
      (acc out : LangMap),
    List.Forall₂ (fun e s => pyGet e "language" (.str "unknown") = .ok s.1 ∧
      (∃ am, pyGet e field (.obj .nil) = .ok am ∧ pyItems am = .ok s.2) ∧
      s.1.hashable = true) entries specs →
    foldLang field entries acc = .ok out →
    ∀ (a : String) (l : Json), lookup2 out a l =
      (match lastWrite specs a l with
       | some v => some v
       | none => lookup2 acc a l) := by
  intro entries
  induction entries with
  | nil =>
      intro specs acc out hf h a l
      cases hf
      unfold foldLang at h
      simp only [pure, Except.pure] at h
      obtain rfl := Except.ok.inj h
      rfl
  | cons e entries ih =>
      intro specs acc out hf h a l
      cases specs with
      | nil => cases hf
      | cons s ss =>
          obtain ⟨s1, s2⟩ := s
          cases hf with
          | cons hes hrest =>
              obtain ⟨hlang, ⟨am, ham, hitems⟩, _⟩ := hes
              unfold foldLang at h
              rw [hlang] at h
              simp only [Bind.bind, Except.bind] at h
              rw [ham] at h
              simp only [Except.bind] at h
              rw [hitems] at h
              simp only [Except.bind] at h
              rcases hw : writeLang s1 s2 acc with _ | acc'
              · rw [hw] at h
                simp [Except.bind] at h
              rw [hw] at h
              simp only [Except.bind] at h
              have hout := ih ss acc' out hrest h a l
              have hstep := writeLang_last s1 s2 acc acc' hw a l
              rw [hstep] at hout
              rw [hout]
              rw [show lastWrite ((s1, s2) :: ss) a l = (match lastWrite ss a l with
                | some v => some v
                | none => if l = s1 then lastVal s2 a else none) from rfl]
              rcases hlw : lastWrite ss a l with _ | w
              · by_cases hl : l = s1
                · rw [if_pos hl, if_pos hl]
                · rw [if_neg hl, if_neg hl]
              · rfl

/-! ## Claim theorems -/

/-- C1: applying the upsert sequence emitted for a document twice yields a
graph state identical (same nodes, same edges, same property values) to
applying it once — every upsert is match-then-set by a stable key, so the
re-run creates no nodes or edges and rewrites every property to the value
it already has. -/
theorem import_idempotent (data : Json) (nm uid : String) (qs : List Query) (g : Graph)
    (hok : importOca data nm uid = .ok qs) (hg : g.WF) :
    applyAll (applyAll g qs) qs = applyAll g qs := by
  obtain ⟨sid, cbid, ty, rest, rfl, hsid⟩ := importOca_shape data nm uid qs hok
  exact applyAll_replay sid nm cbid ty rest hsid g hg

/-- A sample OCA package document exercising ids, attributes, unit and
information overlays, a meta overlay and the ordering extension. -/
def docW : Json := .mkObj [
  ("d", .str "SID1"),
  ("oca_bundle", .mkObj [
    ("bundle", .mkObj [
      ("capture_base", .mkObj [
        ("d", .str "CB1"),
        ("attributes", .mkObj [("dob", .str "DateTime"), ("name", .str "Text")])]),
      ("overlays", .mkObj [
        ("unit", .mkObj [("attribute_unit", .mkObj [("dob", .str "days")])]),
        ("information", .mkArr [
          .mkObj [("language", .str "en"),
            ("attribute_information", .mkObj [("dob", .str "Date of birth")])],
          .mkObj [("language", .str "fr"),
            ("attribute_information", .mkObj [("dob", .str "Date de naissance")])]]),
        ("meta", .mkArr [
          .mkObj [("name", .str "SchemaX"), ("description", .str "a schema"),
            ("language", .str "en")]])])])]),
  ("extensions", .mkObj [("adc", .mkObj [("CB1", .mkObj [("overlays", .mkObj [
    ("ordering", .mkObj [
      ("attribute_ordering", .mkArr [.str "dob", .str "name"]),
      ("entry_code_ordering", .mkObj [("dob", .mkArr [.str "a"])])])])])])])]

/-- The query sequence the import emits for `docW`. -/
def qsW : List Query := [
  .schemaQ (.str "SID1") "myschema" (.str "CB1") (.str "oca_package/1.0"),
  .attrQ (.str "dob") (.str "DateTime") (.str "days")
    (.str "\x7b\"en\": \"Date of birth\", \"fr\": \"Date de naissance\"\x7d")
    .null .null .null (.str "SID1"),
  .attrQ (.str "name") (.str "Text") .null .null .null .null .null (.str "SID1"),
  .metaQ (.str "SchemaX") (.str "SID1") (.str "en") (.str "a schema"),
  .orderingQ (.str "SID1") (.mkArr [.str "dob", .str "name"])
    "\x7b\"dob\": [\"a\"]\x7d"]

/-- Witness for C1 at the sample document, imported into the empty graph. -/
theorem import_idempotent_witness :
    importOca docW "myschema" "uuid-1" = Except.ok qsW ∧ Graph.WF Graph.empty ∧
      applyAll (applyAll Graph.empty qsW) qsW = applyAll Graph.empty qsW :=
  ⟨rfl, by decide,
    import_idempotent docW "myschema" "uuid-1" qsW Graph.empty rfl (by decide)⟩

/-- A document with an empty `overlays` section, a single attribute and no
extensions. -/
def minimalDoc (did cbid : Json) (a : String) (t : Json) : Json := .mkObj [
  ("d", did),
  ("oca_bundle", .mkObj [("bundle", .mkObj [
    ("capture_base", .mkObj [("d", cbid), ("attributes", .mkObj [(a, t)])]),
    ("overlays", .mkObj [])])])]

/-- C5: a document whose overlays section is empty and whose capture base
declares exactly one attribute normalizes without failing: the emitted
sequence is the Schema upsert followed by exactly one Attribute upsert
whose unit, description, format, vocabulary and codes are all null, with
no Meta or ordering operations. -/
theorem missing_sections_tolerated (did cbid : Json) (a : String) (t : Json)
    (nm uid : String) :
    importOca (minimalDoc did cbid a t) nm uid = .ok
      [Query.schemaQ (if did.truthy then did else .str uid) nm cbid
        (.str "oca_package/1.0"),
       Query.attrQ (.str a) t .null .null .null .null .null
        (if did.truthy then did else .str uid)] := rfl

/-- A document whose `unit` overlay is a truthy non-mapping. -/
def docBadUnit : Json := .mkObj [
  ("oca_bundle", .mkObj [("bundle", .mkObj [
    ("capture_base", .mkObj [("attributes", .mkObj [("a", .str "Text")])]),
    ("overlays", .mkObj [("unit", .str "bad")])])])]

/-- C4 counterexample: a truthy overlay section of the wrong shape (the
string `"bad"` in place of the unit mapping) is not recovered — the
document's import raises `AttributeError` (Python: `str` has no `.get`). -/
theorem malformed_section_fails :
    importOca docBadUnit "n" "u" = .error .attributeError := rfl

/-- C4 amended: recovery-as-empty is limited to the mapping-shaped
sections. The `unit`, `entry_code` and `format` sections are guarded by a
truthiness test, so a falsy section value is treated as an empty mapping,
while a truthy value that is not a mapping raises `AttributeError`. The
sequence-shaped `information`, `entry` and `meta` sections are iterated
with no guard at all, so a present section that is not iterable — the
falsy `None` included — raises `TypeError`. In both failing cases
processing of that document fails (isolation is at the batch level, by the
caller). -/
theorem malformed_section_behavior (data ov v : Json)
    (hov : overlaysOf data = .ok ov) :
    (pyGet ov "unit" (.obj .nil) = .ok v → v.truthy = false →
      unitsOf data = .ok (.obj .nil)) ∧
    (pyGet ov "unit" (.obj .nil) = .ok v → v.truthy = true → (∀ kvs, v ≠ .obj kvs) →
      unitsOf data = .error .attributeError) ∧
    (pyGet ov "entry_code" (.obj .nil) = .ok v → v.truthy = false →
      entryCodesOf data = .ok (.obj .nil)) ∧
    (pyGet ov "entry_code" (.obj .nil) = .ok v → v.truthy = true →
      (∀ kvs, v ≠ .obj kvs) → entryCodesOf data = .error .attributeError) ∧
    (pyGet ov "format" (.obj .nil) = .ok v → v.truthy = false →
      attributeFormatsOf data = .ok (.obj .nil)) ∧
    (pyGet ov "format" (.obj .nil) = .ok v → v.truthy = true →
      (∀ kvs, v ≠ .obj kvs) → attributeFormatsOf data = .error .attributeError) ∧
    (pyGet ov "information" (.arr .nil) = .ok v → (∀ xs, v ≠ .arr xs) →
      (∀ kvs, v ≠ .obj kvs) → (∀ s, v ≠ .str s) →
      attributeDescriptionsOf data = .error .typeError) ∧
    (pyGet ov "entry" (.arr .nil) = .ok v → (∀ xs, v ≠ .arr xs) →
      (∀ kvs, v ≠ .obj kvs) → (∀ s, v ≠ .str s) →
      controlledVocabulariesOf data = .error .typeError) ∧
    (pyGet ov "meta" (.arr .nil) = .ok v → (∀ xs, v ≠ .arr xs) →
      (∀ kvs, v ≠ .obj kvs) → (∀ s, v ≠ .str s) →
      metaOverlaysOf data = .error .typeError) := by
  refine ⟨?_, ?_, ?_, ?_, ?_, ?_, ?_, ?_, ?_⟩
  · intro hv hfalsy
    unfold unitsOf
    rw [hov]
    simp only [Bind.bind, Except.bind]
    rw [hv]
    simp only [Except.bind, hfalsy]
    rfl
  · intro hv htruthy hnobj
    unfold unitsOf
    rw [hov]
    simp only [Bind.bind, Except.bind]
    rw [hv]
    simp only [Except.bind, htruthy]
    show pyGet v "attribute_unit" (.obj .nil) = .error .attributeError
    cases v with
    | obj kvs => exact absurd rfl (hnobj kvs)
    | null => rfl
    | bool b => rfl
    | num q => rfl
    | str s => rfl
    | arr xs => rfl
  · intro hv hfalsy
    unfold entryCodesOf
    rw [hov]
    simp only [Bind.bind, Except.bind]
    rw [hv]
    simp only [Except.bind, hfalsy]
    rfl
  · intro hv htruthy hnobj
    unfold entryCodesOf
    rw [hov]
    simp only [Bind.bind, Except.bind]
    rw [hv]
    simp only [Except.bind, htruthy]
    show pyGet v "attribute_entry_codes" (.obj .nil) = .error .attributeError
    cases v with
    | obj kvs => exact absurd rfl (hnobj kvs)
    | null => rfl
    | bool b => rfl
    | num q => rfl
    | str s => rfl
    | arr xs => rfl
  · intro hv hfalsy
    unfold attributeFormatsOf
    rw [hov]
    simp only [Bind.bind, Except.bind]
    rw [hv]
    simp only [Except.bind, hfalsy]
    rfl
  · intro hv htruthy hnobj
    unfold attributeFormatsOf
    rw [hov]
    simp only [Bind.bind, Except.bind]
    rw [hv]
    simp only [Except.bind, htruthy]
    show pyGet v "attribute_formats" (.obj .nil) = .error .attributeError
    cases v with
    | obj kvs => exact absurd rfl (hnobj kvs)
    | null => rfl
    | bool b => rfl
    | num q => rfl
    | str s => rfl
    | arr xs => rfl
  · intro hv hnarr hnobj hnstr
    unfold attributeDescriptionsOf
    rw [hov]
    simp only [Bind.bind, Except.bind]
    rw [hv]
    simp only [Bind.bind, Except.bind]
    cases v with
    | arr xs => exact absurd rfl (hnarr xs)
    | obj kvs => exact absurd rfl (hnobj kvs)
    | str s => exact absurd rfl (hnstr s)
    | null => rfl
    | bool b => rfl
    | num q => rfl
  · intro hv hnarr hnobj hnstr
    unfold controlledVocabulariesOf
    rw [hov]
    simp only [Bind.bind, Except.bind]
    rw [hv]
    simp only [Bind.bind, Except.bind]
    cases v with
    | arr xs => exact absurd rfl (hnarr xs)
    | obj kvs => exact absurd rfl (hnobj kvs)
    | str s => exact absurd rfl (hnstr s)
    | null => rfl
    | bool b => rfl
    | num q => rfl
  · intro hv hnarr hnobj hnstr
    unfold metaOverlaysOf
    rw [hov]
    simp only [Bind.bind, Except.bind]
    rw [hv]
    simp only [Bind.bind, Except.bind]
    cases v with
    | arr xs => exact absurd rfl (hnarr xs)
    | obj kvs => exact absurd rfl (hnobj kvs)
    | str s => exact absurd rfl (hnstr s)
    | null => rfl
    | bool b => rfl
    | num q => rfl

/-- A document whose `unit` overlay is the falsy value `""`. -/
def docFalsyUnit : Json := .mkObj [
  ("oca_bundle", .mkObj [("bundle", .mkObj [
    ("overlays", .mkObj [("unit", .str "")])])])]

/-- A document whose `information` overlay section is present but `None`
(falsy). -/
def docNullInfo : Json := .mkObj [
  ("oca_bundle", .mkObj [("bundle", .mkObj [
    ("capture_base", .mkObj [("attributes", .mkObj [("a", .str "Text")])]),
    ("overlays", .mkObj [("information", Json.null)])])])]

/-- Witness for the amended C4: a falsy malformed unit section is treated
as an empty mapping, while a falsy (`None`) information section makes
normalization — and the whole import — fail with `TypeError`. -/
theorem malformed_section_behavior_witness :
    unitsOf docFalsyUnit = .ok (.obj .nil) ∧
    attributeDescriptionsOf docNullInfo = .error .typeError ∧
    importOca docNullInfo "n" "u" = .error .typeError :=
  ⟨(malformed_section_behavior docFalsyUnit (.mkObj [("unit", .str "")])
      (.str "") rfl).1 rfl rfl,
   (malformed_section_behavior docNullInfo (.mkObj [("information", Json.null)])
      Json.null rfl).2.2.2.2.2.2.1 rfl
      (fun _ h => Json.noConfusion h) (fun _ h => Json.noConfusion h)
      (fun _ h => Json.noConfusion h),
   rfl⟩

/-- A document that provides an empty string as its top-level id. -/
def docEmptyId : Json := .mkObj [("d", .str "")]

/-- C8 counterexample: this document provides a top-level id (the empty
string), yet the emitted schema id is the fresh identifier, because the
code uses `data.get("d") or uuid` — a truthiness test, not a presence
test. -/
theorem schema_id_falsy_counterexample :
    (∃ kvs, docEmptyId = Json.obj kvs ∧ kvs.lookup "d" = some (.str "")) ∧
    importOca docEmptyId "n" "fresh-uuid" =
      .ok [Query.schemaQ (.str "fresh-uuid") "n" Json.null (.str "oca_package/1.0")] ∧
    Json.str "fresh-uuid" ≠ Json.str "" :=
  ⟨⟨JObj.ofList [("d", .str "")], rfl, rfl⟩, rfl, by decide⟩

/-- C8 amended: the schema id used by every emitted operation equals the
document's top-level `d` whenever that value is truthy; the injected fresh
identifier is used when `d` is absent or falsy (null, empty string, ...). -/
theorem schema_id_truthy_or_fallback (data : Json) (nm uid : String) (n : NormParts)
    (qs : List Query) (v : Json)
    (hok : importOca data nm uid = .ok qs)
    (hn : normalize data uid = .ok n)
    (hv : pyGet data "d" Json.null = .ok v) :
    n.schema_id = (if v.truthy then v else .str uid) ∧ ∀ q ∈ qs, qSid q = n.schema_id := by
  obtain ⟨cb, attrs, _, hsid, _⟩ := normalize_parts data uid n hn
  have hid : n.schema_id = (if v.truthy then v else .str uid) := by
    unfold schemaIdOf at hsid
    rw [hv] at hsid
    simp only [Bind.bind, Except.bind, pure, Except.pure] at hsid
    exact (Except.ok.inj hsid).symm
  refine ⟨hid, ?_⟩
  have hemit := importOca_eq_emit data nm uid n qs hok hn
  obtain ⟨rest, rfl, hrest⟩ := emit_shape nm n qs hemit
  intro q hq
  rcases List.mem_cons.mp hq with rfl | hmem
  · rfl
  · exact hrest q hmem

/-- Witness for the amended C8 at a document with a truthy id. -/
theorem schema_id_truthy_or_fallback_witness :
    importOca docW "myschema" "uuid-1" = Except.ok qsW ∧
      (∀ q ∈ qsW, qSid q = Json.str "SID1") := by
  refine ⟨rfl, ?_⟩
  have h := schema_id_truthy_or_fallback docW "myschema" "uuid-1"
    ⟨.str "SID1", .str "CB1", .str "oca_package/1.0",
      [("dob", .str "DateTime"), ("name", .str "Text")],
      .mkObj [("dob", .str "days")],
      [("dob", [(.str "en", .str "Date of birth"), (.str "fr", .str "Date de naissance")])],
      [], .obj .nil, .obj .nil,
      [.mkObj [("name", .str "SchemaX"), ("description", .str "a schema"),
        ("language", .str "en")]],
      some (.mkArr [.str "dob", .str "name"], .mkObj [("dob", .mkArr [.str "a"])])⟩
    qsW (.str "SID1") rfl rfl rfl
  intro q hq
  rw [h.2 q hq]

/-- Schema, Attribute and Meta upserts never set the ordering properties. -/
theorem qVal_ordering_none (q : Query) (k : String)
    (hk : k = "attribute_ordering" ∨ k = "entry_code_ordering")
    (h : ∀ sid ao eco, q ≠ Query.orderingQ sid ao eco) :
    qVal q k = none := by
  cases q with
  | schemaQ sid nm cbid ty =>
      refine lastVal_eq_none _ _ ?_
      intro p hp
      simp only [qSetList, List.mem_cons, List.not_mem_nil, or_false] at hp
      rcases hk with rfl | rfl <;>
        rcases hp with rfl | rfl | rfl | rfl <;> first | decide | simp
  | attrQ a ty u d f v c sid =>
      refine lastVal_eq_none _ _ ?_
      intro p hp
      simp only [qSetList, List.mem_cons, List.not_mem_nil, or_false] at hp
      rcases hk with rfl | rfl <;>
        rcases hp with rfl | rfl | rfl | rfl | rfl | rfl <;> first | decide | simp
  | metaQ mn sid ml md =>
      refine lastVal_eq_none _ _ ?_
      intro p hp
      simp only [qSetList, List.mem_cons, List.not_mem_nil, or_false] at hp
      rcases hk with rfl | rfl <;> rcases hp with rfl <;> first | decide | simp
  | orderingQ sid ao eco => exact absurd rfl (h sid ao eco)

/-- The spec's English information overlay entry for `dob`. -/
def infoEn : Json := .mkObj [("language", .str "en"),
  ("attribute_information", .mkObj [("dob", .str "Date of birth")])]

/-- The spec's French information overlay entry for `dob`. -/
def infoFr : Json := .mkObj [("language", .str "fr"),
  ("attribute_information", .mkObj [("dob", .str "Date de naissance")])]

/-- The folded per-language description mapping for `dob`. -/
def foldedDob : LangMap :=
  [("dob", [(.str "en", .str "Date of birth"), (.str "fr", .str "Date de naissance")])]

/-- C3: folding a multi-language overlay iterates the language-tagged
entries and, for each attribute item, overwrites the value stored under
(attribute, language) — so the final value at a pair is the last write
across all entries, and the initial accumulator's value only when no entry
writes the pair. In particular the spec's en/fr information overlays for
`dob` fold to exactly the two-language description mapping. -/
theorem overlay_folding_lastwins :
    (∀ (field : String) (entries : List Json)
      (specs : List (Json × List (String × Json))) (acc out : LangMap),
      List.Forall₂ (fun e s => pyGet e "language" (.str "unknown") = .ok s.1 ∧
        (∃ am, pyGet e field (.obj .nil) = .ok am ∧ pyItems am = .ok s.2) ∧
        s.1.hashable = true) entries specs →
      foldLang field entries acc = .ok out →
      ∀ (a : String) (l : Json), lookup2 out a l =
        (match lastWrite specs a l with
         | some v => some v
         | none => lookup2 acc a l)) ∧
    attributeDescriptionsOf docW = .ok foldedDob :=
  ⟨fun field => foldLang_lastwins field, rfl⟩

/-- Witness for C3 at the spec's two information overlays. -/
theorem overlay_folding_lastwins_witness :
    foldLang "attribute_information" [infoEn, infoFr] [] = .ok foldedDob ∧
      lookup2 foldedDob "dob" (.str "fr") = some (.str "Date de naissance") ∧
      lookup2 foldedDob "dob" (.str "en") = some (.str "Date of birth") := by
  refine ⟨rfl, ?_, ?_⟩
  · have h := (overlay_folding_lastwins).1 "attribute_information" [infoEn, infoFr]
      [(.str "en", [("dob", .str "Date of birth")]),
       (.str "fr", [("dob", .str "Date de naissance")])] [] foldedDob
      (List.Forall₂.cons ⟨rfl, ⟨_, rfl, rfl⟩, rfl⟩
        (List.Forall₂.cons ⟨rfl, ⟨_, rfl, rfl⟩, rfl⟩ List.Forall₂.nil))
      rfl "dob" (.str "fr")
    rw [h]
    rfl
  · have h := (overlay_folding_lastwins).1 "attribute_information" [infoEn, infoFr]
      [(.str "en", [("dob", .str "Date of birth")]),
       (.str "fr", [("dob", .str "Date de naissance")])] [] foldedDob
      (List.Forall₂.cons ⟨rfl, ⟨_, rfl, rfl⟩, rfl⟩
        (List.Forall₂.cons ⟨rfl, ⟨_, rfl, rfl⟩, rfl⟩ List.Forall₂.nil))
      rfl "dob" (.str "en")
    rw [h]
    rfl

/-- C10: an information, entry or meta overlay entry without a `language`
field is processed under the substituted language `"unknown"` rather than
skipped: the defaulting lookup returns `"unknown"`, a language-less
information or entry overlay folds its values under the `"unknown"` key,
and a language-less meta entry emits its Meta upsert with language
`"unknown"`. -/
theorem missing_language_unknown :
    (∀ eo : JObj, eo.lookup "language" = none →
      pyGet (.obj eo) "language" (.str "unknown") = .ok (.str "unknown")) ∧
    (∀ (a : String) (v : Json),
      foldLang "attribute_information"
        [.mkObj [("attribute_information", .mkObj [(a, v)])]] []
        = .ok [(a, [(.str "unknown", v)])]) ∧
    (∀ (a : String) (v : Json),
      foldLang "attribute_entries" [.mkObj [("attribute_entries", .mkObj [(a, v)])]] []
        = .ok [(a, [(.str "unknown", v)])]) ∧
    (∀ (sid : Json) (ms : List Json) (out : List Query) (m : Json) (mo : JObj)
      (mn md : Json), metaQsOf sid ms = .ok out → m ∈ ms → m = .obj mo →
      mo.lookup "language" = none → pyGet m "name" Json.null = .ok mn →
      mn.truthy = true → pyGet m "description" Json.null = .ok md →
      Query.metaQ mn sid (.str "unknown") md ∈ out) := by
  refine ⟨?_, ?_, ?_, ?_⟩
  · intro eo h
    simp only [pyGet, h]
    rfl
  · intro a v
    rfl
  · intro a v
    rfl
  · intro sid ms out m mo mn md hms hmem hm hlook hname htr hdesc
    refine metaQsOf_of_mem sid ms out m mn md (.str "unknown") hms hmem hname htr hdesc ?_
    rw [hm]
    simp only [pyGet, hlook]
    rfl

/-- Witness for C10: a meta entry without a language field, and a
language-less information entry. -/
theorem missing_language_unknown_witness :
    metaQsOf (.str "S") [.mkObj [("name", .str "T")]] =
      .ok [.metaQ (.str "T") (.str "S") (.str "unknown") Json.null] ∧
    Query.metaQ (.str "T") (.str "S") (.str "unknown") Json.null ∈
      [Query.metaQ (.str "T") (.str "S") (.str "unknown") Json.null] ∧
    foldLang "attribute_information"
      [.mkObj [("attribute_information", .mkObj [("dob", .str "D")])]] []
      = .ok [("dob", [(.str "unknown", .str "D")])] := by
  refine ⟨rfl, ?_, missing_language_unknown.2.1 "dob" (.str "D")⟩
  exact missing_language_unknown.2.2.2 (.str "S") [.mkObj [("name", .str "T")]]
    [.metaQ (.str "T") (.str "S") (.str "unknown") Json.null]
    (.mkObj [("name", .str "T")]) (JObj.ofList [("name", .str "T")])
    (.str "T") Json.null rfl (by simp) rfl rfl rfl (by decide) rfl

/-- C6: when `extensions.adc` has no entry under the document's
capture-base id — in particular when either is absent and so defaulted —
the extracted ordering data is empty, and applying the emitted sequence to
any graph leaves the `attribute_ordering` and `entry_code_ordering`
properties of every node, the Schema node included, exactly as they were. -/
theorem ordering_omitted (data : Json) (nm uid : String) (ext adc cbid : Json)
    (qs : List Query) (g : Graph)
    (hext : pyGet data "extensions" (.obj .nil) = .ok ext)
    (hadc : pyGet ext "adc" (.obj .nil) = .ok adc)
    (hcb : captureBaseIdOf data = .ok cbid)
    (hnotin : pyContains adc cbid = .ok false)
    (hok : importOca data nm uid = .ok qs) :
    orderingDataOf data = .ok none ∧
    ∀ nk : NKey,
      (applyAll g qs).prop nk "attribute_ordering" = g.prop nk "attribute_ordering" ∧
      (applyAll g qs).prop nk "entry_code_ordering" = g.prop nk "entry_code_ordering" := by
  have hord : orderingDataOf data = .ok none := by
    unfold orderingDataOf
    rw [hext]
    simp only [Bind.bind, Except.bind]
    rw [hadc]
    simp only [Bind.bind, Except.bind]
    rw [hcb]
    simp only [Bind.bind, Except.bind]
    rw [hnotin]
    simp only [Bind.bind, Except.bind]
    rfl
  refine ⟨hord, ?_⟩
  intro nk
  have hok' := hok
  unfold importOca at hok'
  rcases hn : normalize data uid with _ | n
  · rw [hn] at hok'
    simp [Bind.bind, Except.bind] at hok'
  rw [hn] at hok'
  simp only [Bind.bind, Except.bind] at hok'
  obtain ⟨cb, attrs, _, _, _, _, _, _, _, _, _, _, h11, _, _⟩ :=
    normalize_parts data uid n hn
  have hnone : n.ordering_data = none := (Except.ok.inj (hord.symm.trans h11)).symm
  obtain ⟨aqs, mqs, ha, hm, hqs⟩ := emit_parts nm n qs hok'
  rw [hnone] at hqs
  have hfr : ∀ k, k = "attribute_ordering" ∨ k = "entry_code_ordering" →
      (applyAll g qs).prop nk k = g.prop nk k := by
    intro k hk
    refine prop_applyAll_frame g qs nk k ?_
    rintro ⟨q, hq, hw⟩
    have hne : ∀ sid ao eco, q ≠ Query.orderingQ sid ao eco := by
      rw [hqs] at hq
      rcases List.mem_cons.mp hq with rfl | hq'
      · intro sid ao eco hcon
        exact Query.noConfusion hcon
      · rw [List.append_nil] at hq'
        rcases List.mem_append.mp hq' with hq2 | hq3
        · obtain ⟨a, _, hfa⟩ := mapE_mem_exists _ _ _ _ ha hq2
          obtain ⟨au, af, ac, _, _, _, rfl⟩ := attrQOf_ok _ _ _ _ _ _ _ _ hfa
          intro sid ao eco hcon
          exact Query.noConfusion hcon
        · obtain ⟨mn, ml, md, rfl, _⟩ := metaQsOf_mem_shape _ _ _ _ hm hq3
          intro sid ao eco hcon
          exact Query.noConfusion hcon
    have h2 := hw.2
    rw [qVal_ordering_none q k hk hne] at h2
    exact Bool.noConfusion h2
  exact ⟨hfr _ (Or.inl rfl), hfr _ (Or.inr rfl)⟩

/-- Witness for C6: a document with no `extensions` section at all. -/
theorem ordering_omitted_witness :
    orderingDataOf (minimalDoc (.str "S") (.str "C") "a" (.str "Text")) = .ok none ∧
    ∀ nk : NKey,
      (applyAll Graph.empty
        [Query.schemaQ (.str "S") "n" (.str "C") (.str "oca_package/1.0"),
         Query.attrQ (.str "a") (.str "Text") .null .null .null .null .null
           (.str "S")]).prop nk "attribute_ordering" =
        Graph.empty.prop nk "attribute_ordering" ∧
      (applyAll Graph.empty
        [Query.schemaQ (.str "S") "n" (.str "C") (.str "oca_package/1.0"),
         Query.attrQ (.str "a") (.str "Text") .null .null .null .null .null
           (.str "S")]).prop nk "entry_code_ordering" =
        Graph.empty.prop nk "entry_code_ordering" :=
  ordering_omitted (minimalDoc (.str "S") (.str "C") "a" (.str "Text")) "n" "u"
    (.obj .nil) (.obj .nil) (.str "C")
    [Query.schemaQ (.str "S") "n" (.str "C") (.str "oca_package/1.0"),
     Query.attrQ (.str "a") (.str "Text") .null .null .null .null .null (.str "S")]
    Graph.empty rfl rfl rfl rfl rfl

/-- C9: every Attribute upsert sets all six properties — type, unit,
description, format, vocabulary, codes — on the matched node; when the
overlay sections carry no data for an attribute the emitted upsert passes
null for unit, description, format, vocabulary and codes, and since `SET`
with a null parameter removes the property, importing such a document
leaves those five properties absent on the Attribute node whatever values a
previous import had stored. -/
theorem attr_null_overwrites (data : Json) (nm uid : String) (n : NormParts)
    (qs : List Query) (a : String) (ty : Json) (g : Graph)
    (hok : importOca data nm uid = .ok qs)
    (hn : normalize data uid = .ok n)
    (hmem : (a, ty) ∈ n.attrItems)
    (hu : pyGet n.units a Json.null = .ok Json.null)
    (hd : dumpsIfTruthy n.descs a = Json.null)
    (hf : pyGet n.formats a Json.null = .ok Json.null)
    (hv : dumpsIfTruthy n.vocs a = Json.null)
    (hc : pyGet n.entry_codes a Json.null = .ok Json.null) :
    (∀ q ∈ qs, ∀ nm' ty' u d f v c sid, q = Query.attrQ nm' ty' u d f v c sid →
      ∀ k ∈ ["type", "unit", "description", "format", "vocabulary", "codes"],
        (qVal q k).isSome = true) ∧
    Query.attrQ (.str a) ty Json.null Json.null Json.null Json.null Json.null
      n.schema_id ∈ qs ∧
    ∀ k ∈ ["unit", "description", "format", "vocabulary", "codes"],
      (applyAll g qs).prop (akey (.str a)) k = none := by
  have hemit := importOca_eq_emit data nm uid n qs hok hn
  obtain ⟨aqs, mqs, ha, hm, hqs⟩ := emit_parts nm n qs hemit
  have hsix : ∀ q ∈ qs, ∀ nm' ty' u d f v c sid,
      q = Query.attrQ nm' ty' u d f v c sid →
      ∀ k ∈ ["type", "unit", "description", "format", "vocabulary", "codes"],
        (qVal q k).isSome = true := by
    rintro q _ nm' ty' u d f v c sid rfl k hk
    simp only [List.mem_cons, List.not_mem_nil, or_false] at hk
    rcases hk with rfl | rfl | rfl | rfl | rfl | rfl <;> rfl
  obtain ⟨q0, hq0, hfa0⟩ := mapE_of_mem _ n.attrItems aqs (a, ty) ha hmem
  obtain ⟨au0, af0, ac0, hau0, haf0, hac0, rfl⟩ := attrQOf_ok _ _ _ _ _ _ _ _ hfa0
  have hau0' : au0 = Json.null := (Except.ok.inj (hu.symm.trans hau0)).symm
  have haf0' : af0 = Json.null := (Except.ok.inj (hf.symm.trans haf0)).symm
  have hac0' : ac0 = Json.null := (Except.ok.inj (hc.symm.trans hac0)).symm
  have hqmem : Query.attrQ (.str a) ty Json.null Json.null Json.null Json.null Json.null
      n.schema_id ∈ qs := by
    rw [hqs]
    refine List.mem_cons_of_mem _ (List.mem_append_left _ (List.mem_append_left _ ?_))
    have hq0' : Query.attrQ (.str a) ty au0 (dumpsIfTruthy n.descs a) af0
        (dumpsIfTruthy n.vocs a)
        (if ac0.truthy then Json.str ac0.dumps else Json.null) n.schema_id ∈ aqs := hq0
    rw [hau0', haf0', hac0', hd, hv] at hq0'
    exact hq0'
  refine ⟨hsix, hqmem, ?_⟩
  intro k hk
  refine applyAll_prop_none qs g (akey (.str a)) k (by simp [akey]) ?_ ?_
  · refine ⟨Query.attrQ (.str a) ty Json.null Json.null Json.null Json.null Json.null
      n.schema_id, hqmem, rfl, ?_⟩
    simp only [List.mem_cons, List.not_mem_nil, or_false] at hk
    rcases hk with rfl | rfl | rfl | rfl | rfl <;> rfl
  · intro q hq hw
    rw [hqs] at hq
    rcases List.mem_cons.mp hq with rfl | hq'
    · exact absurd (congrArg NKey.label hw.1) (by simp [akey, skey, qTarget])
    rcases List.mem_append.mp hq' with hq2 | hq3
    rcases List.mem_append.mp hq2 with hq4 | hq5
    · obtain ⟨p, _, hfa⟩ := mapE_mem_exists _ _ _ _ ha hq4
      obtain ⟨au, af, ac, hau, haf, hac, rfl⟩ := attrQOf_ok _ _ _ _ _ _ _ _ hfa
      have hpa : p.1 = a := by
        have h2 := congrArg NKey.key hw.1
        simp only [akey, qTarget, Json.str.injEq, List.cons.injEq, Prod.mk.injEq,
          and_true, true_and] at h2
        exact h2.symm
      rw [hpa] at hau haf hac
      have hau' : au = Json.null := (Except.ok.inj (hu.symm.trans hau)).symm
      have haf' : af = Json.null := (Except.ok.inj (hf.symm.trans haf)).symm
      have hac' : ac = Json.null := (Except.ok.inj (hc.symm.trans hac)).symm
      rw [hpa, hau', haf', hac', hd, hv]
      simp only [List.mem_cons, List.not_mem_nil, or_false] at hk
      rcases hk with rfl | rfl | rfl | rfl | rfl <;> rfl
    · obtain ⟨mn, ml, md, rfl, _⟩ := metaQsOf_mem_shape _ _ _ _ hm hq5
      exact absurd (congrArg NKey.label hw.1) (by simp [akey, mkey, qTarget])
    · rcases hod : n.ordering_data with _ | ⟨ao, eco⟩
      · rw [hod] at hq3
        exact absurd hq3 (List.not_mem_nil q)
      · rw [hod] at hq3
        rcases List.mem_cons.mp hq3 with rfl | hnil
        · exact absurd (congrArg NKey.label hw.1) (by simp [akey, skey, qTarget])
        · exact absurd hnil (List.not_mem_nil q)

/-- A graph holding a stale unit value for attribute `a` from an earlier
import. -/
def staleGraph : Graph := ⟨[⟨akey (.str "a"), [("unit", .str "days")]⟩], []⟩

/-- The normalized parts of `minimalDoc (.str "S") (.str "C") "a"
(.str "Text")`. -/
def partsNoOverlays : NormParts := ⟨.str "S", .str "C", .str "oca_package/1.0",
  [("a", .str "Text")], .obj .nil, [], [], .obj .nil, .obj .nil, [], none⟩

/-- Witness for C9: re-importing the overlay-less document removes the
previously stored unit value. -/
theorem attr_null_overwrites_witness :
    staleGraph.prop (akey (.str "a")) "unit" = some (.str "days") ∧
    (applyAll staleGraph
      [Query.schemaQ (.str "S") "n" (.str "C") (.str "oca_package/1.0"),
       Query.attrQ (.str "a") (.str "Text") .null .null .null .null .null
         (.str "S")]).prop (akey (.str "a")) "unit" = none :=
  ⟨rfl,
    (attr_null_overwrites (minimalDoc (.str "S") (.str "C") "a" (.str "Text")) "n" "u"
      partsNoOverlays
      [Query.schemaQ (.str "S") "n" (.str "C") (.str "oca_package/1.0"),
       Query.attrQ (.str "a") (.str "Text") .null .null .null .null .null (.str "S")]
      "a" (.str "Text") staleGraph rfl rfl (by simp [partsNoOverlays]) rfl rfl rfl rfl
      rfl).2.2 "unit" (by simp)⟩

/-- C2: attribute identity is the attribute's name across the whole graph.
Importing two documents whose capture bases both declare attribute `a`
leaves exactly one Attribute node named `a`, with a `HAS_ATTRIBUTE` edge
from each of the two Schema nodes, and the shared node's six properties
after both imports equal their values after running the second document's
sequence alone from any starting graph — the second import's values
overwrite the first's. -/
theorem attribute_shared (d1 d2 : Json) (nm1 nm2 uid1 uid2 : String)
    (n1 n2 : NormParts) (qs1 qs2 : List Query) (a : String) (ty1 ty2 : Json)
    (g0 : Graph)
    (hok1 : importOca d1 nm1 uid1 = .ok qs1) (hn1 : normalize d1 uid1 = .ok n1)
    (hok2 : importOca d2 nm2 uid2 = .ok qs2) (hn2 : normalize d2 uid2 = .ok n2)
    (hmem1 : (a, ty1) ∈ n1.attrItems) (hmem2 : (a, ty2) ∈ n2.attrItems)
    (hwf : g0.WF) :
    countNk (applyAll (applyAll g0 qs1) qs2) (akey (.str a)) = 1 ∧
    Edge.mk (skey n1.schema_id) "HAS_ATTRIBUTE" (akey (.str a)) ∈
      (applyAll (applyAll g0 qs1) qs2).edges ∧
    Edge.mk (skey n2.schema_id) "HAS_ATTRIBUTE" (akey (.str a)) ∈
      (applyAll (applyAll g0 qs1) qs2).edges ∧
    ∀ (h : Graph) (k : String),
      k ∈ ["type", "unit", "description", "format", "vocabulary", "codes"] →
      (applyAll (applyAll g0 qs1) qs2).prop (akey (.str a)) k =
        (applyAll h qs2).prop (akey (.str a)) k := by
  have hemit1 := importOca_eq_emit d1 nm1 uid1 n1 qs1 hok1 hn1
  have hemit2 := importOca_eq_emit d2 nm2 uid2 n2 qs2 hok2 hn2
  obtain ⟨aqs1, mqs1, ha1, hm1, hqs1⟩ := emit_parts nm1 n1 qs1 hemit1
  obtain ⟨aqs2, mqs2, ha2, hm2, hqs2⟩ := emit_parts nm2 n2 qs2 hemit2
  obtain ⟨q1, hq1, hfa1⟩ := mapE_of_mem _ n1.attrItems aqs1 (a, ty1) ha1 hmem1
  obtain ⟨au1, af1, ac1, _, _, _, rfl⟩ := attrQOf_ok _ _ _ _ _ _ _ _ hfa1
  obtain ⟨q2, hq2, hfa2⟩ := mapE_of_mem _ n2.attrItems aqs2 (a, ty2) ha2 hmem2
  obtain ⟨au2, af2, ac2, _, _, _, rfl⟩ := attrQOf_ok _ _ _ _ _ _ _ _ hfa2
  have hq2qs : (Query.attrQ (.str (a, ty2).1) (a, ty2).2 au2
      (dumpsIfTruthy n2.descs (a, ty2).1) af2 (dumpsIfTruthy n2.vocs (a, ty2).1)
      (if ac2.truthy then Json.str ac2.dumps else Json.null) n2.schema_id) ∈ qs2 := by
    rw [hqs2]
    exact List.mem_cons_of_mem _ (List.mem_append_left _ (List.mem_append_left _ hq2))
  refine ⟨?_, ?_, ?_, ?_⟩
  · refine countNk_eq_one _ _ (WF_applyAll _ _ (WF_applyAll _ _ hwf)) ?_
    exact findNode_applyAll_target (applyAll g0 qs1) qs2 _ hq2qs rfl
  · refine edges_applyAll_mono _ qs2 _ ?_
    rw [hqs1]
    exact edge_mem_applyAll n1.schema_id nm1 n1.capture_base_id n1.schema_type _ g0 _ _
      (List.mem_append_left _ (List.mem_append_left _ hq1)) rfl rfl
  · rw [hqs2]
    exact edge_mem_applyAll n2.schema_id nm2 n2.capture_base_id n2.schema_type _
      (applyAll g0 qs1) _ _
      (List.mem_append_left _ (List.mem_append_left _ hq2)) rfl rfl
  · intro h k hk
    refine applyAll_prop_eq qs2 _ _ _ _ (by simp [akey]) (Or.inl ⟨_, hq2qs, rfl, ?_⟩)
    simp only [List.mem_cons, List.not_mem_nil, or_false] at hk
    rcases hk with rfl | rfl | rfl | rfl | rfl | rfl <;> rfl

/-- Normalized parts of `minimalDoc (.str "S1") (.str "C1") "dob"
(.str "DateTime")`. -/
def partsShared1 : NormParts := ⟨.str "S1", .str "C1", .str "oca_package/1.0",
  [("dob", .str "DateTime")], .obj .nil, [], [], .obj .nil, .obj .nil, [], none⟩

/-- Normalized parts of `minimalDoc (.str "S2") (.str "C2") "dob"
(.str "Text")`. -/
def partsShared2 : NormParts := ⟨.str "S2", .str "C2", .str "oca_package/1.0",
  [("dob", .str "Text")], .obj .nil, [], [], .obj .nil, .obj .nil, [], none⟩

/-- Witness for C2: two concrete documents sharing the attribute `dob`. -/
theorem attribute_shared_witness :
    countNk (applyAll (applyAll Graph.empty
      [Query.schemaQ (.str "S1") "n1" (.str "C1") (.str "oca_package/1.0"),
       Query.attrQ (.str "dob") (.str "DateTime") .null .null .null .null .null
         (.str "S1")])
      [Query.schemaQ (.str "S2") "n2" (.str "C2") (.str "oca_package/1.0"),
       Query.attrQ (.str "dob") (.str "Text") .null .null .null .null .null
         (.str "S2")]) (akey (.str "dob")) = 1 ∧
    Edge.mk (skey (.str "S1")) "HAS_ATTRIBUTE" (akey (.str "dob")) ∈
      (applyAll (applyAll Graph.empty
        [Query.schemaQ (.str "S1") "n1" (.str "C1") (.str "oca_package/1.0"),
         Query.attrQ (.str "dob") (.str "DateTime") .null .null .null .null .null
           (.str "S1")])
        [Query.schemaQ (.str "S2") "n2" (.str "C2") (.str "oca_package/1.0"),
         Query.attrQ (.str "dob") (.str "Text") .null .null .null .null .null
           (.str "S2")]).edges ∧
    Edge.mk (skey (.str "S2")) "HAS_ATTRIBUTE" (akey (.str "dob")) ∈
      (applyAll (applyAll Graph.empty
        [Query.schemaQ (.str "S1") "n1" (.str "C1") (.str "oca_package/1.0"),
         Query.attrQ (.str "dob") (.str "DateTime") .null .null .null .null .null
           (.str "S1")])
        [Query.schemaQ (.str "S2") "n2" (.str "C2") (.str "oca_package/1.0"),
         Query.attrQ (.str "dob") (.str "Text") .null .null .null .null .null
           (.str "S2")]).edges ∧
    (applyAll (applyAll Graph.empty
      [Query.schemaQ (.str "S1") "n1" (.str "C1") (.str "oca_package/1.0"),
       Query.attrQ (.str "dob") (.str "DateTime") .null .null .null .null .null
         (.str "S1")])
      [Query.schemaQ (.str "S2") "n2" (.str "C2") (.str "oca_package/1.0"),
       Query.attrQ (.str "dob") (.str "Text") .null .null .null .null .null
         (.str "S2")]).prop (akey (.str "dob")) "type" =
      (applyAll Graph.empty
        [Query.schemaQ (.str "S2") "n2" (.str "C2") (.str "oca_package/1.0"),
         Query.attrQ (.str "dob") (.str "Text") .null .null .null .null .null
           (.str "S2")]).prop (akey (.str "dob")) "type" := by
  have H := attribute_shared
    (minimalDoc (.str "S1") (.str "C1") "dob" (.str "DateTime"))
    (minimalDoc (.str "S2") (.str "C2") "dob" (.str "Text"))
    "n1" "n2" "u1" "u2" partsShared1 partsShared2
    [Query.schemaQ (.str "S1") "n1" (.str "C1") (.str "oca_package/1.0"),
     Query.attrQ (.str "dob") (.str "DateTime") .null .null .null .null .null
       (.str "S1")]
    [Query.schemaQ (.str "S2") "n2" (.str "C2") (.str "oca_package/1.0"),
     Query.attrQ (.str "dob") (.str "Text") .null .null .null .null .null (.str "S2")]
    "dob" (.str "DateTime") (.str "Text") Graph.empty
    rfl rfl rfl rfl (by decide) (by decide) (by decide)
  exact ⟨H.1, H.2.1, H.2.2.1, H.2.2.2 Graph.empty "type" (by simp)⟩

/-- C7: Meta nodes are keyed by the `(name, schema_id, language)` triple —
every emitted Meta upsert targets `mkey name schema_id language` and is
emitted only for meta entries with a truthy name, an entry with a falsy
name emits nothing — and two documents declaring a meta entry with the same
name and language but different schema ids produce two distinct Meta nodes,
one per schema id. -/
theorem meta_scoped (d1 d2 : Json) (nm1 nm2 uid1 uid2 : String)
    (n1 n2 : NormParts) (qs1 qs2 : List Query) (m1 m2 : Json) (mn md1 md2 ml : Json)
    (g0 : Graph)
    (hok1 : importOca d1 nm1 uid1 = .ok qs1) (hn1 : normalize d1 uid1 = .ok n1)
    (hok2 : importOca d2 nm2 uid2 = .ok qs2) (hn2 : normalize d2 uid2 = .ok n2)
    (hm1mem : m1 ∈ n1.metas) (hm2mem : m2 ∈ n2.metas)
    (hname1 : pyGet m1 "name" Json.null = .ok mn)
    (hname2 : pyGet m2 "name" Json.null = .ok mn)
    (htr : mn.truthy = true)
    (hdesc1 : pyGet m1 "description" Json.null = .ok md1)
    (hdesc2 : pyGet m2 "description" Json.null = .ok md2)
    (hlang1 : pyGet m1 "language" (.str "unknown") = .ok ml)
    (hlang2 : pyGet m2 "language" (.str "unknown") = .ok ml)
    (hsid : n1.schema_id ≠ n2.schema_id) (hwf : g0.WF) :
    (∀ sid ms out q, metaQsOf sid ms = .ok out → q ∈ out →
      ∃ nm lang desc, q = .metaQ nm sid lang desc ∧ nm.truthy = true ∧
        qTarget q = mkey nm sid lang) ∧
    (∀ (sid m : Json) (ms : List Json) (out : List Query) (mn' md' ml' : Json),
      pyGet m "name" Json.null = .ok mn' → mn'.truthy = false →
      pyGet m "description" Json.null = .ok md' →
      pyGet m "language" (.str "unknown") = .ok ml' →
      metaQsOf sid ms = .ok out → metaQsOf sid (m :: ms) = .ok out) ∧
    (applyAll (applyAll g0 qs1) qs2).findNode (mkey mn n1.schema_id ml) = true ∧
    (applyAll (applyAll g0 qs1) qs2).findNode (mkey mn n2.schema_id ml) = true ∧
    mkey mn n1.schema_id ml ≠ mkey mn n2.schema_id ml ∧
    countNk (applyAll (applyAll g0 qs1) qs2) (mkey mn n1.schema_id ml) = 1 ∧
    countNk (applyAll (applyAll g0 qs1) qs2) (mkey mn n2.schema_id ml) = 1 := by
  have hemit1 := importOca_eq_emit d1 nm1 uid1 n1 qs1 hok1 hn1
  have hemit2 := importOca_eq_emit d2 nm2 uid2 n2 qs2 hok2 hn2
  obtain ⟨aqs1, mqs1, ha1, hm1, hqs1⟩ := emit_parts nm1 n1 qs1 hemit1
  obtain ⟨aqs2, mqs2, ha2, hm2, hqs2⟩ := emit_parts nm2 n2 qs2 hemit2
  have hq1 := metaQsOf_of_mem n1.schema_id n1.metas mqs1 m1 mn md1 ml hm1 hm1mem
    hname1 htr hdesc1 hlang1
  have hq2 := metaQsOf_of_mem n2.schema_id n2.metas mqs2 m2 mn md2 ml hm2 hm2mem
    hname2 htr hdesc2 hlang2
  have hq1qs : Query.metaQ mn n1.schema_id ml md1 ∈ qs1 := by
    rw [hqs1]
    exact List.mem_cons_of_mem _
      (List.mem_append_left _ (List.mem_append_right _ hq1))
  have hq2qs : Query.metaQ mn n2.schema_id ml md2 ∈ qs2 := by
    rw [hqs2]
    exact List.mem_cons_of_mem _
      (List.mem_append_left _ (List.mem_append_right _ hq2))
  have hf1 : (applyAll (applyAll g0 qs1) qs2).findNode (mkey mn n1.schema_id ml)
      = true :=
    findNode_applyAll_mono _ qs2 _ (findNode_applyAll_target g0 qs1 _ hq1qs rfl)
  have hf2 : (applyAll (applyAll g0 qs1) qs2).findNode (mkey mn n2.schema_id ml)
      = true :=
    findNode_applyAll_target (applyAll g0 qs1) qs2 _ hq2qs rfl
  have hwf2 : (applyAll (applyAll g0 qs1) qs2).WF :=
    WF_applyAll _ _ (WF_applyAll _ _ hwf)
  have hne : mkey mn n1.schema_id ml ≠ mkey mn n2.schema_id ml := by
    intro hcon
    have h2 := congrArg NKey.key hcon
    simp only [mkey, List.cons.injEq, Prod.mk.injEq, true_and, and_true] at h2
    exact hsid h2
  refine ⟨?_, ?_, hf1, hf2, hne, countNk_eq_one _ _ hwf2 hf1, countNk_eq_one _ _ hwf2 hf2⟩
  · intro sid ms out q hms hq
    obtain ⟨nm0, lang0, desc0, rfl, htr0⟩ := metaQsOf_mem_shape sid ms out q hms hq
    exact ⟨nm0, lang0, desc0, rfl, htr0, rfl⟩
  · intro sid m ms out mn' md' ml' hname hfal hdesc hlang hms
    unfold metaQsOf
    rw [hname]
    simp only [Bind.bind, Except.bind]
    rw [hdesc]
    simp only [Bind.bind, Except.bind]
    rw [hlang]
    simp only [Bind.bind, Except.bind]
    rw [hms]
    simp only [Bind.bind, Except.bind]
    rw [hfal]
    simp [pure, Except.pure]

/-- A document carrying one meta overlay entry named `name` in `en`. -/
def metaDoc (sid : Json) : Json := .mkObj [
  ("d", sid),
  ("oca_bundle", .mkObj [("bundle", .mkObj [
    ("capture_base", .mkObj [("d", .str "CB"), ("attributes", .mkObj [])]),
    ("overlays", .mkObj [("meta", .mkArr [
      .mkObj [("name", .str "name"), ("description", .str "D"),
        ("language", .str "en")]])])])])]

/-- Normalized parts of `metaDoc sid`. -/
def partsMeta (sid : Json) : NormParts := ⟨sid, .str "CB", .str "oca_package/1.0",
  [], .obj .nil, [], [], .obj .nil, .obj .nil,
  [.mkObj [("name", .str "name"), ("description", .str "D"),
    ("language", .str "en")]], none⟩

/-- Witness for C7: two documents with schema ids `S1`, `S2`, each with a
meta entry `name`/`en`. -/
theorem meta_scoped_witness :
    (applyAll (applyAll Graph.empty
      [Query.schemaQ (.str "S1") "n1" (.str "CB") (.str "oca_package/1.0"),
       Query.metaQ (.str "name") (.str "S1") (.str "en") (.str "D")])
      [Query.schemaQ (.str "S2") "n2" (.str "CB") (.str "oca_package/1.0"),
       Query.metaQ (.str "name") (.str "S2") (.str "en") (.str "D")]).findNode
      (mkey (.str "name") (.str "S1") (.str "en")) = true ∧
    (applyAll (applyAll Graph.empty
      [Query.schemaQ (.str "S1") "n1" (.str "CB") (.str "oca_package/1.0"),
       Query.metaQ (.str "name") (.str "S1") (.str "en") (.str "D")])
      [Query.schemaQ (.str "S2") "n2" (.str "CB") (.str "oca_package/1.0"),
       Query.metaQ (.str "name") (.str "S2") (.str "en") (.str "D")]).findNode
      (mkey (.str "name") (.str "S2") (.str "en")) = true ∧
    mkey (.str "name") (.str "S1") (.str "en") ≠
      mkey (.str "name") (.str "S2") (.str "en") ∧
    countNk (applyAll (applyAll Graph.empty
      [Query.schemaQ (.str "S1") "n1" (.str "CB") (.str "oca_package/1.0"),
       Query.metaQ (.str "name") (.str "S1") (.str "en") (.str "D")])
      [Query.schemaQ (.str "S2") "n2" (.str "CB") (.str "oca_package/1.0"),
       Query.metaQ (.str "name") (.str "S2") (.str "en") (.str "D")])
      (mkey (.str "name") (.str "S1") (.str "en")) = 1 ∧
    countNk (applyAll (applyAll Graph.empty
      [Query.schemaQ (.str "S1") "n1" (.str "CB") (.str "oca_package/1.0"),
       Query.metaQ (.str "name") (.str "S1") (.str "en") (.str "D")])
      [Query.schemaQ (.str "S2") "n2" (.str "CB") (.str "oca_package/1.0"),
       Query.metaQ (.str "name") (.str "S2") (.str "en") (.str "D")])
      (mkey (.str "name") (.str "S2") (.str "en")) = 1 := by
  have H := meta_scoped (metaDoc (.str "S1")) (metaDoc (.str "S2")) "n1" "n2" "u1" "u2"
    (partsMeta (.str "S1")) (partsMeta (.str "S2"))
    [Query.schemaQ (.str "S1") "n1" (.str "CB") (.str "oca_package/1.0"),
     Query.metaQ (.str "name") (.str "S1") (.str "en") (.str "D")]
    [Query.schemaQ (.str "S2") "n2" (.str "CB") (.str "oca_package/1.0"),
     Query.metaQ (.str "name") (.str "S2") (.str "en") (.str "D")]
    (.mkObj [("name", .str "name"), ("description", .str "D"),
      ("language", .str "en")])
    (.mkObj [("name", .str "name"), ("description", .str "D"),
      ("language", .str "en")])
    (.str "name") (.str "D") (.str "D") (.str "en") Graph.empty
    rfl rfl rfl rfl (by simp [partsMeta]) (by simp [partsMeta])
    rfl rfl rfl rfl rfl rfl rfl (by decide) (by decide)
  exact ⟨H.2.2.1, H.2.2.2.1, H.2.2.2.2.1, H.2.2.2.2.2.1, H.2.2.2.2.2.2⟩

end SchemaGenie
